import Mathlib

/-!
# Verification of the contract-analysis backend core

This development embeds the three core components of the backend
(`calculateHealthScore`, the JSON extraction chain around `extractJSON`,
and the content-addressed contract store built on `saveContract`) as
executable Lean definitions, and proves the spec's testable properties
about them.

Modelling conventions:
* JavaScript numbers are modelled as rationals (`ℚ`); `Math.round` is
  `⌊x + 1/2⌋` (round half toward positive infinity, as in JS for the
  values arising here), `Math.min`/`Math.max` are `min`/`max`.
* A possibly-missing or non-numeric field is `Option ℚ`; the JS idiom
  `x || d` on numbers maps `none` and `0` to the default `d`.
* Strings are `List Char`; JSON text handled by `JSON.parse` is modelled
  by an executable recursive-descent parser over `List Char` in which
  JSON numbers are integers (the backend's dimension payloads are
  integer-valued), and the repair regexes are modelled as direct scans
  with the same matching semantics.
-/

namespace ShadowCore

/-! ## Scoring engine: `calculateHealthScore` -/

/-- The raw dimension payload handed to the scorer: each of the four
fields may be absent (or non-numeric, which behaves the same here). -/
structure DimsIn where
  mad : Option ℚ
  mao : Option ℚ
  maa : Option ℚ
  map : Option ℚ
deriving DecidableEq, Repr

/-- The defaulted dimension set the scorer actually works with. -/
structure Dims where
  mad : ℚ
  mao : ℚ
  maa : ℚ
  map : ℚ
deriving DecidableEq, Repr

/-- The reported score breakdown (`breakdown` in the returned object). -/
structure Breakdown where
  safetyScore : ℚ
  valueScore : ℚ
  bonusPoints : ℚ
deriving DecidableEq, Repr

/-- The full return value of `calculateHealthScore`. -/
structure ScoreResult where
  score : ℤ
  dimensions : Dims
  tier : String
  tierLabel : String
  breakdown : Breakdown
deriving DecidableEq, Repr

/-- JS `x || d` on a possibly-missing number: `undefined` and `0` are
falsy and yield the default. -/
def jsOr (x : Option ℚ) (d : ℚ) : ℚ :=
  match x with
  | none => d
  | some v => if v = 0 then d else v

/-- JS `Math.round` for the (finite) values arising here. -/
def jsRound (q : ℚ) : ℤ := ⌊q + 1/2⌋

/-- `Math.round(x * 10) / 10`: rounding to one decimal for reporting. -/
def roundTo1 (q : ℚ) : ℚ := (jsRound (q * 10) : ℚ) / 10

/-- The default substitution block at the top of `calculateHealthScore`:
`mad: overallDimensions?.mad || 0`, `mao: ... || 50`, `maa: ... || 50`,
`map: ... || 0`. -/
def effDims (overallDimensions : Option DimsIn) : Dims :=
  { mad := jsOr (overallDimensions.bind (·.mad)) 0
    mao := jsOr (overallDimensions.bind (·.mao)) 50
    maa := jsOr (overallDimensions.bind (·.maa)) 50
    map := jsOr (overallDimensions.bind (·.map)) 0 }

/-- `const safetyScore = (100 - mad) * 0.6`. -/
def safetyScoreOf (d : Dims) : ℚ := (100 - d.mad) * (6/10)

/-- `const valueWeighted = (mao + maa + map)/3; const valueScore = valueWeighted * 0.4`. -/
def valueScoreOf (d : Dims) : ℚ := ((d.mao + d.maa + d.map) / 3) * (4/10)

/-- The two additive accelerator bonuses. -/
def bonusOf (d : Dims) : ℚ :=
  (if d.mad < 5 ∧ d.mao > 75 then 5 else 0) +
  (if d.mad < 5 ∧ d.mao > 85 then 3 else 0)

/-- Raw score after bonuses and the `mad > 35` circuit breaker
(`rawScore = Math.min(rawScore, 59)` when the breaker fires). -/
def rawAfterBreaker (d : Dims) : ℚ :=
  if d.mad > 35 then min (safetyScoreOf d + valueScoreOf d + bonusOf d) 59
  else safetyScoreOf d + valueScoreOf d + bonusOf d

/-- `Math.round(Math.min(100, Math.max(0, rawScore)))`. -/
def finalScoreOf (d : Dims) : ℤ := jsRound (min 100 (max 0 (rawAfterBreaker d)))

/-- The tier ladder, highest band first. -/
def tierOf (finalScore : ℤ) : String × String :=
  if finalScore ≥ 90 then ("S", "王者")
  else if finalScore ≥ 80 then ("A", "優質")
  else if finalScore ≥ 70 then ("B", "標準")
  else if finalScore ≥ 60 then ("C", "觀察")
  else ("D", "淘汰")

/-- `calculateHealthScore(overallDimensions)`, faithful to the source:
defaults are substituted up front, the function never fails, and the
breakdown reports the component scores rounded to one decimal. -/
def calculateHealthScore (overallDimensions : Option DimsIn) : ScoreResult :=
  let dims := effDims overallDimensions
  let finalScore := finalScoreOf dims
  let t := tierOf finalScore
  { score := finalScore
    dimensions := dims
    tier := t.1
    tierLabel := t.2
    breakdown :=
      { safetyScore := roundTo1 (safetyScoreOf dims)
        valueScore := roundTo1 (valueScoreOf dims)
        bonusPoints := bonusOf dims } }

/-- Shorthand for feeding four present numeric dimensions to the scorer. -/
def scoreOf (mad mao maa mapv : ℚ) : ScoreResult :=
  calculateHealthScore (some { mad := some mad, mao := some mao, maa := some maa, map := some mapv })

/-- The dimension validation loop of the upload handler: `mad, mao, maa,
map` are checked in order; a missing/non-numeric/NaN/out-of-range value
produces the handler's error detail for that field. -/
def checkDim (dimName : String) (v : Option ℚ) : Option String :=
  match v with
  | none => some (dimName ++ " 的值必須是 0-100 之間的數字")
  | some q => if q < 0 ∨ q > 100 then some (dimName ++ " 的值必須是 0-100 之間的數字") else none

/-- The upload handler's validation of `result.dimensions`, returning
`some errorDetail` exactly when the handler would reject with HTTP 500
before any score is computed. -/
def validateDimensions (resultDimensions : Option DimsIn) : Option String :=
  match resultDimensions with
  | none => some "dimensions 欄位缺失或格式不正確"
  | some d =>
    match checkDim "mad" d.mad with
    | some e => some e
    | none =>
      match checkDim "mao" d.mao with
      | some e => some e
      | none =>
        match checkDim "maa" d.maa with
        | some e => some e
        | none => checkDim "map" d.map

/-- A single dimension value acceptable to the upload handler: present,
numeric, and within `[0,100]`. -/
def dimOk : Option ℚ → Prop
  | none => False
  | some q => 0 ≤ q ∧ q ≤ 100

/-! ### Basic lemmas about the scorer -/

theorem jsOr_zero_default (v : ℚ) : jsOr (some v) 0 = v := by
  simp only [jsOr]
  split_ifs with h
  · exact h.symm
  · rfl

theorem jsOr_of_ne_zero {v : ℚ} (h : v ≠ 0) (d : ℚ) : jsOr (some v) d = v := by
  simp [jsOr, h]

theorem jsOr_ne_zero (x : Option ℚ) : jsOr x 50 ≠ 0 := by
  rcases x with _ | v
  · norm_num [jsOr]
  · simp only [jsOr]
    split_ifs with h
    · norm_num
    · exact h

theorem jsRound_mono {a b : ℚ} (h : a ≤ b) : jsRound a ≤ jsRound b :=
  Int.floor_le_floor (by linarith)

theorem jsRound_le_of_le {q : ℚ} {n : ℤ} (h : q ≤ (n : ℚ)) : jsRound q ≤ n := by
  unfold jsRound
  have h2 : ⌊q + 1/2⌋ < n + 1 := Int.floor_lt.mpr (by
    have hc : (((n + 1) : ℤ) : ℚ) = (n : ℚ) + 1 := by norm_cast
    rw [hc]; linarith)
  omega

/-- An indicator bounded by a weaker indicator. -/
theorem ind_le_ind {p q : Prop} [Decidable p] [Decidable q] {a : ℚ} (ha : 0 ≤ a)
    (hpq : p → q) : (if p then a else 0) ≤ (if q then a else 0) := by
  split_ifs with h1 h2
  · exact le_rfl
  · exact absurd (hpq h1) h2
  · exact ha
  · exact le_rfl

theorem jsRound_nonneg {q : ℚ} (h : 0 ≤ q) : 0 ≤ jsRound q := by
  have : jsRound 0 ≤ jsRound q := jsRound_mono h
  have h0 : jsRound (0 : ℚ) = 0 := by norm_num [jsRound]
  omega

theorem calculateHealthScore_score (x : Option DimsIn) :
    (calculateHealthScore x).score = finalScoreOf (effDims x) := rfl

theorem calculateHealthScore_dims (x : Option DimsIn) :
    (calculateHealthScore x).dimensions = effDims x := rfl

theorem calculateHealthScore_tier (x : Option DimsIn) :
    (calculateHealthScore x).tier = (tierOf (finalScoreOf (effDims x))).1 := rfl

theorem calculateHealthScore_tierLabel (x : Option DimsIn) :
    (calculateHealthScore x).tierLabel = (tierOf (finalScoreOf (effDims x))).2 := rfl

theorem calculateHealthScore_breakdown (x : Option DimsIn) :
    (calculateHealthScore x).breakdown =
      { safetyScore := roundTo1 (safetyScoreOf (effDims x))
        valueScore := roundTo1 (valueScoreOf (effDims x))
        bonusPoints := bonusOf (effDims x) } := rfl

theorem jsRound_eq {q : ℚ} {n : ℤ} (h1 : (n : ℚ) ≤ q + 1/2) (h2 : q + 1/2 < (n : ℚ) + 1) :
    jsRound q = n := by
  unfold jsRound
  exact Int.floor_eq_iff.mpr ⟨h1, h2⟩

theorem effDims_scoreOf (a b c e : ℚ) :
    effDims (some { mad := some a, mao := some b, maa := some c, map := some e }) =
      { mad := a, mao := jsOr (some b) 50, maa := jsOr (some c) 50, map := e } := by
  simp [effDims, jsOr_zero_default]

theorem finalScore_mono_of_raw {d1 d2 : Dims}
    (h : rawAfterBreaker d1 ≤ rawAfterBreaker d2) : finalScoreOf d1 ≤ finalScoreOf d2 := by
  apply jsRound_mono
  exact min_le_min le_rfl (max_le_max le_rfl h)

theorem finalScoreOf_le_59 {d : Dims} (h : d.mad > 35) : finalScoreOf d ≤ 59 := by
  have h1 : rawAfterBreaker d ≤ 59 := by
    simp only [rawAfterBreaker, if_pos h]
    exact min_le_right _ _
  have h2 : min 100 (max 0 (rawAfterBreaker d)) ≤ ((59 : ℤ) : ℚ) := by
    calc min 100 (max 0 (rawAfterBreaker d)) ≤ max 0 (rawAfterBreaker d) := min_le_right _ _
      _ ≤ ((59 : ℤ) : ℚ) := max_le (by norm_num) (by exact_mod_cast h1)
  exact jsRound_le_of_le h2

theorem finalScoreOf_anti_mad {x1 x2 b c e : ℚ} (h : x1 ≤ x2) :
    finalScoreOf ⟨x2, b, c, e⟩ ≤ finalScoreOf ⟨x1, b, c, e⟩ := by
  apply finalScore_mono_of_raw
  have hr : safetyScoreOf ⟨x2, b, c, e⟩ + valueScoreOf ⟨x2, b, c, e⟩ + bonusOf ⟨x2, b, c, e⟩ ≤
      safetyScoreOf ⟨x1, b, c, e⟩ + valueScoreOf ⟨x1, b, c, e⟩ + bonusOf ⟨x1, b, c, e⟩ := by
    have hs : safetyScoreOf ⟨x2, b, c, e⟩ ≤ safetyScoreOf ⟨x1, b, c, e⟩ := by
      simp only [safetyScoreOf]
      nlinarith
    have hv : valueScoreOf ⟨x2, b, c, e⟩ = valueScoreOf ⟨x1, b, c, e⟩ := rfl
    have hb : bonusOf ⟨x2, b, c, e⟩ ≤ bonusOf ⟨x1, b, c, e⟩ := by
      simp only [bonusOf]
      refine add_le_add (ind_le_ind (by norm_num) ?_) (ind_le_ind (by norm_num) ?_) <;>
        exact fun hc => ⟨lt_of_le_of_lt h hc.1, hc.2⟩
    linarith
  simp only [rawAfterBreaker]
  split_ifs with h2 h1
  · exact min_le_min hr le_rfl
  · calc min _ 59 ≤ _ := min_le_left _ _
      _ ≤ _ := hr
  · exfalso; simp only [Dims.mad] at *; linarith
  · exact hr

theorem finalScoreOf_mono_mao {a x1 x2 c e : ℚ} (h : x1 ≤ x2) :
    finalScoreOf ⟨a, x1, c, e⟩ ≤ finalScoreOf ⟨a, x2, c, e⟩ := by
  apply finalScore_mono_of_raw
  have hr : safetyScoreOf ⟨a, x1, c, e⟩ + valueScoreOf ⟨a, x1, c, e⟩ + bonusOf ⟨a, x1, c, e⟩ ≤
      safetyScoreOf ⟨a, x2, c, e⟩ + valueScoreOf ⟨a, x2, c, e⟩ + bonusOf ⟨a, x2, c, e⟩ := by
    have hv : valueScoreOf ⟨a, x1, c, e⟩ ≤ valueScoreOf ⟨a, x2, c, e⟩ := by
      simp only [valueScoreOf]
      nlinarith
    have hb : bonusOf ⟨a, x1, c, e⟩ ≤ bonusOf ⟨a, x2, c, e⟩ := by
      simp only [bonusOf]
      refine add_le_add (ind_le_ind (by norm_num) ?_) (ind_le_ind (by norm_num) ?_) <;>
        exact fun hc => ⟨hc.1, lt_of_lt_of_le hc.2 h⟩
    have hs : safetyScoreOf ⟨a, x1, c, e⟩ = safetyScoreOf ⟨a, x2, c, e⟩ := rfl
    linarith
  simp only [rawAfterBreaker]
  split_ifs
  · exact min_le_min hr le_rfl
  · exact hr

theorem finalScoreOf_mono_maa {a b x1 x2 e : ℚ} (h : x1 ≤ x2) :
    finalScoreOf ⟨a, b, x1, e⟩ ≤ finalScoreOf ⟨a, b, x2, e⟩ := by
  apply finalScore_mono_of_raw
  have hr : safetyScoreOf ⟨a, b, x1, e⟩ + valueScoreOf ⟨a, b, x1, e⟩ + bonusOf ⟨a, b, x1, e⟩ ≤
      safetyScoreOf ⟨a, b, x2, e⟩ + valueScoreOf ⟨a, b, x2, e⟩ + bonusOf ⟨a, b, x2, e⟩ := by
    have hv : valueScoreOf ⟨a, b, x1, e⟩ ≤ valueScoreOf ⟨a, b, x2, e⟩ := by
      simp only [valueScoreOf]
      nlinarith
    have hb : bonusOf ⟨a, b, x1, e⟩ = bonusOf ⟨a, b, x2, e⟩ := rfl
    have hs : safetyScoreOf ⟨a, b, x1, e⟩ = safetyScoreOf ⟨a, b, x2, e⟩ := rfl
    linarith
  simp only [rawAfterBreaker]
  split_ifs
  · exact min_le_min hr le_rfl
  · exact hr

theorem finalScoreOf_mono_map {a b c x1 x2 : ℚ} (h : x1 ≤ x2) :
    finalScoreOf ⟨a, b, c, x1⟩ ≤ finalScoreOf ⟨a, b, c, x2⟩ := by
  apply finalScore_mono_of_raw
  have hr : safetyScoreOf ⟨a, b, c, x1⟩ + valueScoreOf ⟨a, b, c, x1⟩ + bonusOf ⟨a, b, c, x1⟩ ≤
      safetyScoreOf ⟨a, b, c, x2⟩ + valueScoreOf ⟨a, b, c, x2⟩ + bonusOf ⟨a, b, c, x2⟩ := by
    have hv : valueScoreOf ⟨a, b, c, x1⟩ ≤ valueScoreOf ⟨a, b, c, x2⟩ := by
      simp only [valueScoreOf]
      nlinarith
    have hb : bonusOf ⟨a, b, c, x1⟩ = bonusOf ⟨a, b, c, x2⟩ := rfl
    have hs : safetyScoreOf ⟨a, b, c, x1⟩ = safetyScoreOf ⟨a, b, c, x2⟩ := rfl
    linarith
  simp only [rawAfterBreaker]
  split_ifs
  · exact min_le_min hr le_rfl
  · exact hr

/-! ### Concrete evaluations used by the claim theorems -/

theorem effDims_45 :
    effDims (some { mad := some 45, mao := some 80, maa := some 50, map := some 40 }) =
      { mad := 45, mao := 80, maa := 50, map := 40 } := by
  rw [effDims_scoreOf]; norm_num [jsOr]

theorem finalScoreOf_45 : finalScoreOf { mad := (45:ℚ), mao := 80, maa := 50, map := 40 } = 56 := by
  norm_num [finalScoreOf, rawAfterBreaker, safetyScoreOf, valueScoreOf, bonusOf, jsRound,
    min_def, max_def, Int.floor_eq_iff]

theorem effDims_3 :
    effDims (some { mad := some 3, mao := some 78, maa := some 60, map := some 50 }) =
      { mad := 3, mao := 78, maa := 60, map := 50 } := by
  rw [effDims_scoreOf]; norm_num [jsOr]

theorem finalScoreOf_3 : finalScoreOf { mad := (3:ℚ), mao := 78, maa := 60, map := 50 } = 88 := by
  norm_num [finalScoreOf, rawAfterBreaker, safetyScoreOf, valueScoreOf, bonusOf, jsRound,
    min_def, max_def, Int.floor_eq_iff]

theorem effDims_mao_zero :
    effDims (some { mad := some 10, mao := some 0, maa := some 50, map := some 50 }) =
      { mad := 10, mao := 50, maa := 50, map := 50 } := by
  rw [effDims_scoreOf]; norm_num [jsOr]

theorem effDims_mao_fifty :
    effDims (some { mad := some 10, mao := some 50, maa := some 50, map := some 50 }) =
      { mad := 10, mao := 50, maa := 50, map := 50 } := by
  rw [effDims_scoreOf]; norm_num [jsOr]

theorem finalScoreOf_74 : finalScoreOf { mad := (10:ℚ), mao := 50, maa := 50, map := 50 } = 74 := by
  norm_num [finalScoreOf, rawAfterBreaker, safetyScoreOf, valueScoreOf, bonusOf, jsRound,
    min_def, max_def, Int.floor_eq_iff]

theorem effDims_mao_one :
    effDims (some { mad := some 10, mao := some 1, maa := some 50, map := some 50 }) =
      { mad := 10, mao := 1, maa := 50, map := 50 } := by
  rw [effDims_scoreOf]; norm_num [jsOr]

theorem finalScoreOf_67 : finalScoreOf { mad := (10:ℚ), mao := 1, maa := 50, map := 50 } = 67 := by
  norm_num [finalScoreOf, rawAfterBreaker, safetyScoreOf, valueScoreOf, bonusOf, jsRound,
    min_def, max_def, Int.floor_eq_iff]

/-! ### Claim theorems for the scoring engine -/

/-- C1: for every valid `DimensionSet` (all four dimensions in `[0,100]`)
with `destructionRisk` (`mad`) `> 35`, `calculateHealthScore` returns
`finalScore ≤ 59` regardless of the other three dimensions and of any
bonus; and the concrete input `{destructionRisk:45, mutualAdvantage:80,
attritionDepth:50, strategicPotential:40}` yields `finalScore 56` and
tier `"D"`. -/
theorem c1_circuit_breaker_dominance :
    (∀ mad mao maa mapv : ℚ, 0 ≤ mad → mad ≤ 100 → 0 ≤ mao → mao ≤ 100 →
      0 ≤ maa → maa ≤ 100 → 0 ≤ mapv → mapv ≤ 100 → mad > 35 →
      (scoreOf mad mao maa mapv).score ≤ 59) ∧
    (scoreOf 45 80 50 40).score = 56 ∧ (scoreOf 45 80 50 40).tier = "D" := by
  refine ⟨?_, ?_, ?_⟩
  · intro mad mao maa mapv _ _ _ _ _ _ _ _ hmad
    rw [scoreOf, calculateHealthScore_score, effDims_scoreOf]
    exact finalScoreOf_le_59 hmad
  · rw [scoreOf, calculateHealthScore_score, effDims_45, finalScoreOf_45]
  · rw [scoreOf, calculateHealthScore_tier, effDims_45, finalScoreOf_45]
    norm_num [tierOf]

/-- C1 witness: the circuit-breaker bound applied at a concrete input. -/
theorem c1_circuit_breaker_dominance_witness : (scoreOf 50 100 100 100).score ≤ 59 :=
  c1_circuit_breaker_dominance.1 50 100 100 100 (by norm_num) (by norm_num) (by norm_num)
    (by norm_num) (by norm_num) (by norm_num) (by norm_num) (by norm_num) (by norm_num)

/-- C2 counterexample: `mao = 0` is present, numeric and inside `[0,100]`
(the upload handler's validation accepts it), yet `calculateHealthScore`
silently substitutes the default 50 for it and returns normally — the
scoring engine itself does substitute defaults, contradicting the claim. -/
theorem c2_no_silent_default_counterexample :
    validateDimensions (some { mad := some 10, mao := some 0, maa := some 50, map := some 50 }) = none ∧
    (scoreOf 10 0 50 50).dimensions.mao = 50 ∧
    (scoreOf 10 0 50 50).score = 74 ∧
    scoreOf 10 0 50 50 = scoreOf 10 50 50 50 := by
  refine ⟨?_, ?_, ?_, ?_⟩
  · norm_num [validateDimensions, checkDim]
  · rw [scoreOf, calculateHealthScore_dims, effDims_mao_zero]
  · rw [scoreOf, calculateHealthScore_score, effDims_mao_zero, finalScoreOf_74]
  · simp only [scoreOf, calculateHealthScore, effDims_mao_zero, effDims_mao_fifty]

/-- C2 amended: dimension validation (present, numeric, within `[0,100]`,
error naming the offending field) is performed by the upload handler
before any score is computed, not by `calculateHealthScore`; the scoring
engine itself substitutes defaults up front (0 for a missing `mad`/`map`,
50 for a missing or zero `mao`/`maa`) and never fails. -/
theorem c2_validation_amended :
    (∀ d : DimsIn, validateDimensions (some d) = none ↔
      dimOk d.mad ∧ dimOk d.mao ∧ dimOk d.maa ∧ dimOk d.map) ∧
    validateDimensions none = some "dimensions 欄位缺失或格式不正確" ∧
    (∀ (d : DimsIn) (e : String), validateDimensions (some d) = some e →
      (e = "mad 的值必須是 0-100 之間的數字" ∧ ¬ dimOk d.mad) ∨
      (e = "mao 的值必須是 0-100 之間的數字" ∧ ¬ dimOk d.mao) ∨
      (e = "maa 的值必須是 0-100 之間的數字" ∧ ¬ dimOk d.maa) ∨
      (e = "map 的值必須是 0-100 之間的數字" ∧ ¬ dimOk d.map)) ∧
    (∀ d : DimsIn, calculateHealthScore (some d) =
      calculateHealthScore (some { mad := some (jsOr d.mad 0), mao := some (jsOr d.mao 50),
                                   maa := some (jsOr d.maa 50), map := some (jsOr d.map 0) })) := by
  have hchk : ∀ (nm : String) (v : Option ℚ),
      (checkDim nm v = none ↔ dimOk v) ∧
      (∀ e, checkDim nm v = some e → e = nm ++ " 的值必須是 0-100 之間的數字" ∧ ¬ dimOk v) := by
    intro nm v
    rcases v with _ | q
    · simp [checkDim, dimOk]
    · constructor
      · simp only [checkDim, dimOk]
        split_ifs with hq
        · simp only [reduceCtorEq, false_iff, not_and]
          intro h0
          rcases hq with hq | hq <;> intro h <;> linarith
        · push_neg at hq
          simp [hq.1, hq.2]
      · intro e he
        simp only [checkDim] at he
        split_ifs at he with hq
        · refine ⟨by injection he with h; exact h.symm, ?_⟩
          simp only [dimOk, not_and]
          intro h0
          rcases hq with hq | hq <;> intro h <;> linarith
  refine ⟨?_, rfl, ?_, ?_⟩
  · intro d
    simp only [validateDimensions]
    rcases h1 : checkDim "mad" d.mad with _ | e1
    · rcases h2 : checkDim "mao" d.mao with _ | e2
      · rcases h3 : checkDim "maa" d.maa with _ | e3
        · rw [(hchk "map" d.map).1]
          simp [(hchk "mad" d.mad).1.mp h1, (hchk "mao" d.mao).1.mp h2,
            (hchk "maa" d.maa).1.mp h3]
        · simp only [reduceCtorEq, false_iff, not_and]
          intro _ _ hok3 _
          exact absurd ((hchk "maa" d.maa).1.mpr hok3) (by simp [h3])
      · simp only [reduceCtorEq, false_iff, not_and]
        intro _ hok2 _ _
        exact absurd ((hchk "mao" d.mao).1.mpr hok2) (by simp [h2])
    · simp only [reduceCtorEq, false_iff, not_and]
      intro hok1 _ _ _
      exact absurd ((hchk "mad" d.mad).1.mpr hok1) (by simp [h1])
  · intro d e he
    simp only [validateDimensions] at he
    rcases h1 : checkDim "mad" d.mad with _ | e1 <;> rw [h1] at he
    · rcases h2 : checkDim "mao" d.mao with _ | e2 <;> rw [h2] at he
      · rcases h3 : checkDim "maa" d.maa with _ | e3 <;> rw [h3] at he
        · exact Or.inr (Or.inr (Or.inr ((hchk "map" d.map).2 e he)))
        · injection he with h
          subst h
          exact Or.inr (Or.inr (Or.inl ((hchk "maa" d.maa).2 e3 h3)))
      · injection he with h
        subst h
        exact Or.inr (Or.inl ((hchk "mao" d.mao).2 e2 h2))
    · injection he with h
      subst h
      exact Or.inl ((hchk "mad" d.mad).2 e1 h1)
  · intro d
    have heff : effDims (some d) =
        effDims (some { mad := some (jsOr d.mad 0), mao := some (jsOr d.mao 50),
                        maa := some (jsOr d.maa 50), map := some (jsOr d.map 0) }) := by
      rw [effDims_scoreOf, jsOr_of_ne_zero (jsOr_ne_zero d.mao) 50,
        jsOr_of_ne_zero (jsOr_ne_zero d.maa) 50]
      rfl
    simp only [calculateHealthScore, heff]

/-- C2 amended witness: the handler rejects a payload whose `mao` is
missing, naming `mao` in the error. -/
theorem c2_validation_amended_witness :
    ("mao 的值必須是 0-100 之間的數字" = "mad 的值必須是 0-100 之間的數字" ∧
       ¬ dimOk (some (10:ℚ))) ∨
    ("mao 的值必須是 0-100 之間的數字" = "mao 的值必須是 0-100 之間的數字" ∧ ¬ dimOk none) ∨
    ("mao 的值必須是 0-100 之間的數字" = "maa 的值必須是 0-100 之間的數字" ∧
       ¬ dimOk (some (5:ℚ))) ∨
    ("mao 的值必須是 0-100 之間的數字" = "map 的值必須是 0-100 之間的數字" ∧
       ¬ dimOk (some (5:ℚ))) :=
  c2_validation_amended.2.2.1 { mad := some 10, mao := none, maa := some 5, map := some 5 }
    "mao 的值必須是 0-100 之間的數字" (by rfl)

/-- C3 counterexample: with `{mad:10, maa:50, map:50}` fixed, raising
`mutualAdvantage` from the valid value 0 to 1 drops the final score from
74 to 67, because a zero `mao` is replaced by the default 50 before
scoring — so the claimed monotonicity over all of `[0,100]` fails. -/
theorem c3_monotonicity_counterexample :
    (0:ℚ) ≤ 1 ∧ (scoreOf 10 0 50 50).score = 74 ∧ (scoreOf 10 1 50 50).score = 67 := by
  refine ⟨by norm_num, ?_, ?_⟩
  · rw [scoreOf, calculateHealthScore_score, effDims_mao_zero, finalScoreOf_74]
  · rw [scoreOf, calculateHealthScore_score, effDims_mao_one, finalScoreOf_67]

/-- C3 amended: the final score is monotonically non-increasing in
`destructionRisk` and non-decreasing in `strategicPotential` over all of
`[0,100]`, and non-decreasing in `mutualAdvantage` and `attritionDepth`
over the nonzero values `(0,100]` — a zero `mao`/`maa` is first replaced
by the default 50, which breaks monotonicity at 0. -/
theorem c3_monotonicity_amended :
    (∀ m1 m2 b c e : ℚ, 0 ≤ m1 → m1 ≤ m2 → m2 ≤ 100 → 0 ≤ b → b ≤ 100 →
      0 ≤ c → c ≤ 100 → 0 ≤ e → e ≤ 100 →
      (scoreOf m2 b c e).score ≤ (scoreOf m1 b c e).score) ∧
    (∀ a b1 b2 c e : ℚ, 0 ≤ a → a ≤ 100 → 0 < b1 → b1 ≤ b2 → b2 ≤ 100 →
      0 ≤ c → c ≤ 100 → 0 ≤ e → e ≤ 100 →
      (scoreOf a b1 c e).score ≤ (scoreOf a b2 c e).score) ∧
    (∀ a b c1 c2 e : ℚ, 0 ≤ a → a ≤ 100 → 0 ≤ b → b ≤ 100 →
      0 < c1 → c1 ≤ c2 → c2 ≤ 100 → 0 ≤ e → e ≤ 100 →
      (scoreOf a b c1 e).score ≤ (scoreOf a b c2 e).score) ∧
    (∀ a b c e1 e2 : ℚ, 0 ≤ a → a ≤ 100 → 0 ≤ b → b ≤ 100 →
      0 ≤ c → c ≤ 100 → 0 ≤ e1 → e1 ≤ e2 → e2 ≤ 100 →
      (scoreOf a b c e1).score ≤ (scoreOf a b c e2).score) := by
  refine ⟨?_, ?_, ?_, ?_⟩
  · intro m1 m2 b c e _ h _ _ _ _ _ _ _
    simp only [scoreOf, calculateHealthScore_score, effDims_scoreOf]
    exact finalScoreOf_anti_mad h
  · intro a b1 b2 c e _ _ hb1 h _ _ _ _ _
    simp only [scoreOf, calculateHealthScore_score, effDims_scoreOf]
    rw [jsOr_of_ne_zero (v := b1) (by linarith) 50, jsOr_of_ne_zero (v := b2) (by linarith) 50]
    exact finalScoreOf_mono_mao h
  · intro a b c1 c2 e _ _ _ _ hc1 h _ _ _
    simp only [scoreOf, calculateHealthScore_score, effDims_scoreOf]
    rw [jsOr_of_ne_zero (v := c1) (by linarith) 50, jsOr_of_ne_zero (v := c2) (by linarith) 50]
    exact finalScoreOf_mono_maa h
  · intro a b c e1 e2 _ _ _ _ _ _ _ h _
    simp only [scoreOf, calculateHealthScore_score, effDims_scoreOf]
    exact finalScoreOf_mono_map h

/-- C3 amended witness: each monotonicity direction applied at concrete
inputs. -/
theorem c3_monotonicity_amended_witness :
    (scoreOf 40 70 60 50).score ≤ (scoreOf 20 70 60 50).score ∧
    (scoreOf 20 30 60 50).score ≤ (scoreOf 20 80 60 50).score ∧
    (scoreOf 20 70 10 50).score ≤ (scoreOf 20 70 90 50).score ∧
    (scoreOf 20 70 60 10).score ≤ (scoreOf 20 70 60 90).score :=
  ⟨c3_monotonicity_amended.1 20 40 70 60 50 (by norm_num) (by norm_num) (by norm_num)
      (by norm_num) (by norm_num) (by norm_num) (by norm_num) (by norm_num) (by norm_num),
   c3_monotonicity_amended.2.1 20 30 80 60 50 (by norm_num) (by norm_num) (by norm_num)
      (by norm_num) (by norm_num) (by norm_num) (by norm_num) (by norm_num) (by norm_num),
   c3_monotonicity_amended.2.2.1 20 70 10 90 50 (by norm_num) (by norm_num) (by norm_num)
      (by norm_num) (by norm_num) (by norm_num) (by norm_num) (by norm_num) (by norm_num),
   c3_monotonicity_amended.2.2.2 20 70 60 10 90 (by norm_num) (by norm_num) (by norm_num)
      (by norm_num) (by norm_num) (by norm_num) (by norm_num) (by norm_num) (by norm_num)⟩

/-- C4 counterexample: at `{destructionRisk:3, mutualAdvantage:78,
attritionDepth:60, strategicPotential:50}` the reported value component
is 25.1 (the unrounded value 376/15 ≈ 25.067 rounded to one decimal),
not 25.07 as claimed. -/
theorem c4_scenario_counterexample :
    (scoreOf 3 78 60 50).breakdown.valueScore ≠ 2507/100 := by
  rw [scoreOf, calculateHealthScore_breakdown, effDims_3]
  rw [show valueScoreOf { mad := (3:ℚ), mao := 78, maa := 60, map := 50 } = 376/15 by
    norm_num [valueScoreOf]]
  simp only [roundTo1]
  rw [show jsRound ((376:ℚ)/15 * 10) = 251 from jsRound_eq (by norm_num) (by norm_num)]
  norm_num

/-- C4 amended: the concrete scenario yields safety component 58.2
(= (100−3)×0.6), unrounded value component 376/15 ≈ 25.067 reported as
25.1 after rounding to one decimal, bonus 5, final score 88, tier "A". -/
theorem c4_scenario_amended :
    (scoreOf 3 78 60 50).breakdown.safetyScore = 291/5 ∧
    valueScoreOf (scoreOf 3 78 60 50).dimensions = 376/15 ∧
    (scoreOf 3 78 60 50).breakdown.valueScore = 251/10 ∧
    (scoreOf 3 78 60 50).breakdown.bonusPoints = 5 ∧
    (scoreOf 3 78 60 50).score = 88 ∧
    (scoreOf 3 78 60 50).tier = "A" := by
  have hval : valueScoreOf { mad := (3:ℚ), mao := 78, maa := 60, map := 50 } = 376/15 := by
    norm_num [valueScoreOf]
  refine ⟨?_, ?_, ?_, ?_, ?_, ?_⟩
  · rw [scoreOf, calculateHealthScore_breakdown, effDims_3]
    rw [show safetyScoreOf { mad := (3:ℚ), mao := 78, maa := 60, map := 50 } = 291/5 by
      norm_num [safetyScoreOf]]
    simp only [roundTo1]
    rw [show jsRound ((291:ℚ)/5 * 10) = 582 from jsRound_eq (by norm_num) (by norm_num)]
    norm_num
  · rw [scoreOf, calculateHealthScore_dims, effDims_3, hval]
  · rw [scoreOf, calculateHealthScore_breakdown, effDims_3, hval]
    simp only [roundTo1]
    rw [show jsRound ((376:ℚ)/15 * 10) = 251 from jsRound_eq (by norm_num) (by norm_num)]
    norm_num
  · rw [scoreOf, calculateHealthScore_breakdown, effDims_3]
    norm_num [bonusOf]
  · rw [scoreOf, calculateHealthScore_score, effDims_3, finalScoreOf_3]
  · rw [scoreOf, calculateHealthScore_tier, effDims_3, finalScoreOf_3]
    norm_num [tierOf]

/-- C10: `calculateHealthScore` is total on arbitrary (possibly missing)
finite inputs — it never fails, always yields an integer score in
`[0,100]` whose tier follows the fixed bands, and substitutes the
defaults: a missing or zero `mao`/`maa` scores as 50, a missing `mad`/
`map` as 0, and a `null` input as all-missing. -/
theorem c10_scorer_totality :
    (∀ inp : Option DimsIn,
      0 ≤ (calculateHealthScore inp).score ∧
      (calculateHealthScore inp).score ≤ 100 ∧
      (calculateHealthScore inp).tier =
        (if (calculateHealthScore inp).score ≥ 90 then "S"
         else if (calculateHealthScore inp).score ≥ 80 then "A"
         else if (calculateHealthScore inp).score ≥ 70 then "B"
         else if (calculateHealthScore inp).score ≥ 60 then "C" else "D")) ∧
    (∀ d : DimsIn,
      calculateHealthScore (some { d with mao := none }) =
        calculateHealthScore (some { d with mao := some 50 }) ∧
      calculateHealthScore (some { d with mao := some 0 }) =
        calculateHealthScore (some { d with mao := some 50 }) ∧
      calculateHealthScore (some { d with maa := none }) =
        calculateHealthScore (some { d with maa := some 50 }) ∧
      calculateHealthScore (some { d with maa := some 0 }) =
        calculateHealthScore (some { d with maa := some 50 }) ∧
      calculateHealthScore (some { d with mad := none }) =
        calculateHealthScore (some { d with mad := some 0 }) ∧
      calculateHealthScore (some { d with map := none }) =
        calculateHealthScore (some { d with map := some 0 })) ∧
    calculateHealthScore none =
      calculateHealthScore (some { mad := none, mao := none, maa := none, map := none }) := by
  refine ⟨?_, ?_, rfl⟩
  · intro inp
    refine ⟨?_, ?_, ?_⟩
    · rw [calculateHealthScore_score, finalScoreOf]
      exact jsRound_nonneg (le_min (by norm_num) (le_max_left 0 _))
    · rw [calculateHealthScore_score, finalScoreOf]
      exact jsRound_le_of_le (by exact_mod_cast min_le_left (100:ℚ) _)
    · rw [calculateHealthScore_tier, calculateHealthScore_score, tierOf]
      split_ifs <;> rfl
  · intro d
    have heq : ∀ x y : DimsIn, effDims (some x) = effDims (some y) →
        calculateHealthScore (some x) = calculateHealthScore (some y) := by
      intro x y hxy
      simp only [calculateHealthScore, hxy]
    refine ⟨heq _ _ ?_, heq _ _ ?_, heq _ _ ?_, heq _ _ ?_, heq _ _ ?_, heq _ _ ?_⟩ <;>
      simp [effDims, jsOr]

/-! ## Content-addressed record store

The persisted `ContractRecord` shape of `contracts.json`, together with
the store primitives (`saveContract`, `findContractByHash`,
`findContractById`) and the store-mutating route handlers, with the
external collaborators (hashing, AI analysis, background check) passed
in as parameters. -/

/-- The persisted contract record (stable field names). Opaque payloads
(narratives, background-check results, raw AI output) are modelled as
strings. -/
structure Contract where
  contract_id : String
  file_hash : String
  file_id : Option String
  filename : String
  upload_date : String
  health_score : ℤ
  health_tier : String
  health_tier_label : String
  score_breakdown : Breakdown
  health_dimensions : Dims
  dimension_explanations : String
  overall_recommendation : String
  document_type : String
  seller_company : String
  raw_data : String
  company_data : String
  last_updated : Option String
deriving DecidableEq, Repr

/-- `saveContract`: replace the first record with the same `contract_id`
(JS `findIndex` + assignment), otherwise append (`push`). Written as the
equivalent structural recursion. -/
def saveContract (contracts : List Contract) (contractData : Contract) : List Contract :=
  match contracts with
  | [] => [contractData]
  | c :: rest =>
    if c.contract_id == contractData.contract_id then contractData :: rest
    else c :: saveContract rest contractData

/-- `findContractByHash`: first record whose `file_hash` matches. -/
def findContractByHash (contracts : List Contract) (fileHash : String) : Option Contract :=
  contracts.find? (fun c => c.file_hash == fileHash)

/-- `findContractById`: first record whose `contract_id` matches. -/
def findContractById (contracts : List Contract) (contractId : String) : Option Contract :=
  contracts.find? (fun c => c.contract_id == contractId)

/-- The parsed AI analysis payload consumed by the upload and
update-company handlers. -/
structure AnalysisResult where
  dimensions : Option DimsIn
  dimension_explanations : String
  overall_recommendation : String
deriving DecidableEq, Repr

/-- Outcome of the upload handler, as seen by the store. -/
inductive UploadOutcome where
  | duplicate (existing : Contract)
  | failed
  | created (c : Contract)
deriving DecidableEq, Repr

/-- The four present dimensions of a stored record, fed back into the
scorer (`calculateHealthScore(existingContract.health_dimensions)`). -/
def dimsToIn (d : Dims) : DimsIn :=
  { mad := some d.mad, mao := some d.mao, maa := some d.maa, map := some d.map }

/-- The record assembled by the upload handler after a successful
scoring (`savedContractData`). -/
def mkContract (contractId fileHash : String) (fileId : Option String)
    (filename uploadDate : String) (result : AnalysisResult)
    (documentType sellerCompany rawData companyData : String) : Contract :=
  let healthScoreResult := calculateHealthScore result.dimensions
  { contract_id := contractId
    file_hash := fileHash
    file_id := fileId
    filename := filename
    upload_date := uploadDate
    health_score := healthScoreResult.score
    health_tier := healthScoreResult.tier
    health_tier_label := healthScoreResult.tierLabel
    score_breakdown := healthScoreResult.breakdown
    health_dimensions := healthScoreResult.dimensions
    dimension_explanations := result.dimension_explanations
    overall_recommendation := result.overall_recommendation
    document_type := documentType
    seller_company := sellerCompany
    raw_data := rawData
    company_data := companyData
    last_updated := none }

/-- The `POST /upload` handler's effect on the store. The duplicate
check runs first (before any external call); every failure exit leaves
the store unchanged; only a validated, scored result is saved. The
external stages are parameters: `basicInfo` is the stage-1 result
(`none` when extraction failed or the counterparty is unknown),
`analysis` the stage-3 result (`none` when extraction threw). -/
def uploadOp (hashFn : String → String) (store : List Contract) (content : String)
    (basicInfo : Option (String × String)) (analysis : Option AnalysisResult)
    (newId uploadDate : String) (fileId : Option String)
    (filename companyData rawData : String) : List Contract × UploadOutcome :=
  match findContractByHash store (hashFn content) with
  | some existing => (store, .duplicate existing)
  | none =>
    match basicInfo with
    | none => (store, .failed)
    | some docSeller =>
      match analysis with
      | none => (store, .failed)
      | some result =>
        match validateDimensions result.dimensions with
        | some _ => (store, .failed)
        | none =>
          let c := mkContract newId (hashFn content) fileId filename uploadDate result
            docSeller.1 docSeller.2 rawData companyData
          (saveContract store c, .created c)

/-- The degraded branch of `PUT /contracts/:id/update-company` taken
when the record has no `file_id`: the counterparty name and background
data are refreshed, the score recomputed from the *existing* stored
dimensions, and `health_dimensions` itself is left untouched. -/
def updateCompanyDegraded (existingContract : Contract)
    (newCompanyName companyData lastUpdated : String) : Contract :=
  let healthScoreResult := calculateHealthScore (some (dimsToIn existingContract.health_dimensions))
  { existingContract with
    seller_company := newCompanyName
    company_data := companyData
    health_score := healthScoreResult.score
    health_tier := healthScoreResult.tier
    health_tier_label := healthScoreResult.tierLabel
    score_breakdown := healthScoreResult.breakdown
    last_updated := some lastUpdated }

/-- The full-reanalysis branch of the update-company handler (record has
a `file_id`): dimensions, narratives and score are all replaced from the
fresh analysis (note: without re-validation), `contract_id` and
`file_hash` are kept. -/
def updateCompanyFull (existingContract : Contract) (newCompanyName companyData : String)
    (result : AnalysisResult) (rawData lastUpdated : String) : Contract :=
  let healthScoreResult := calculateHealthScore result.dimensions
  { existingContract with
    seller_company := newCompanyName
    company_data := companyData
    health_score := healthScoreResult.score
    health_tier := healthScoreResult.tier
    health_tier_label := healthScoreResult.tierLabel
    score_breakdown := healthScoreResult.breakdown
    health_dimensions := healthScoreResult.dimensions
    dimension_explanations := result.dimension_explanations
    overall_recommendation := result.overall_recommendation
    raw_data := rawData
    last_updated := some lastUpdated }

/-- Outcome of the update-company handler. -/
inductive UpdateOutcome where
  | badRequest
  | notFound
  | failed
  | updated (c : Contract)
deriving DecidableEq, Repr

/-- The whitespace class of JS `\s` (and `String.prototype.trim`):
ASCII whitespace, NBSP, the Unicode space separators, the line and
paragraph separators, and the BOM. -/
def isJsWs (c : Char) : Bool :=
  c = ' ' ∨ c = '\t' ∨ c = '\n' ∨ c = '\r' ∨ c = '\x0b' ∨ c = '\x0c' ∨
  c = '\u00A0' ∨ c = '\u1680' ∨ c = '\u2000' ∨ c = '\u2001' ∨ c = '\u2002' ∨
  c = '\u2003' ∨ c = '\u2004' ∨ c = '\u2005' ∨ c = '\u2006' ∨ c = '\u2007' ∨
  c = '\u2008' ∨ c = '\u2009' ∨ c = '\u200A' ∨ c = '\u2028' ∨ c = '\u2029' ∨
  c = '\u202F' ∨ c = '\u205F' ∨ c = '\u3000' ∨ c = '\uFEFF'

/-- JS `String.prototype.trim`. -/
def trimWs (s : String) : String :=
  String.mk (((s.toList.dropWhile isJsWs).reverse.dropWhile isJsWs).reverse)

/-- The `PUT /contracts/:id/update-company` handler's effect on the
store. `reanalysis` is the external AI result used on the full branch
(`none` when that call threw, leaving the store unchanged). -/
def updateCompanyOp (store : List Contract) (contractId newCompanyName companyData : String)
    (reanalysis : Option AnalysisResult) (rawData lastUpdated : String) :
    List Contract × UpdateOutcome :=
  if trimWs newCompanyName = "" then (store, .badRequest)
  else
    match findContractById store contractId with
    | none => (store, .notFound)
    | some existingContract =>
      match existingContract.file_id with
      | none =>
        let updated := updateCompanyDegraded existingContract newCompanyName companyData lastUpdated
        (saveContract store updated, .updated updated)
      | some _ =>
        match reanalysis with
        | none => (store, .failed)
        | some result =>
          let updated := updateCompanyFull existingContract newCompanyName companyData
            result rawData lastUpdated
          (saveContract store updated, .updated updated)

/-- The `DELETE /contracts/:id` handler: filter out the id, 404 when
nothing was removed. -/
def deleteContractOp (store : List Contract) (contractId : String) : List Contract × Bool :=
  let filtered := store.filter (fun c => !(c.contract_id == contractId))
  if store.length = filtered.length then (store, false) else (filtered, true)

/-- The `POST /contracts/:id/replace` handler: drop the record by id
(the re-upload happens through the upload route). -/
def replaceContractOp (store : List Contract) (contractId : String) : List Contract × Bool :=
  match findContractById store contractId with
  | none => (store, false)
  | some _ => (store.filter (fun c => !(c.contract_id == contractId)), true)

/-- No two stored records share a `file_hash`. -/
def HashUnique (store : List Contract) : Prop :=
  (store.map (·.file_hash)).Nodup

/-- No two stored records share a `contract_id` (auxiliary invariant). -/
def IdUnique (store : List Contract) : Prop :=
  (store.map (·.contract_id)).Nodup

/-- One store transition: any of the four store-mutating handlers, with
arbitrary inputs and external-collaborator outcomes. -/
inductive StoreStep : List Contract → List Contract → Prop where
  | upload (hashFn : String → String) (store : List Contract) (content : String)
      (basicInfo : Option (String × String)) (analysis : Option AnalysisResult)
      (newId uploadDate : String) (fileId : Option String)
      (filename companyData rawData : String) :
      StoreStep store (uploadOp hashFn store content basicInfo analysis newId uploadDate
        fileId filename companyData rawData).1
  | update (store : List Contract) (contractId newCompanyName companyData : String)
      (reanalysis : Option AnalysisResult) (rawData lastUpdated : String) :
      StoreStep store (updateCompanyOp store contractId newCompanyName companyData
        reanalysis rawData lastUpdated).1
  | del (store : List Contract) (contractId : String) :
      StoreStep store (deleteContractOp store contractId).1
  | repl (store : List Contract) (contractId : String) :
      StoreStep store (replaceContractOp store contractId).1

/-- Store states reachable from the empty store through the handlers. -/
def ReachableStore (store : List Contract) : Prop :=
  Relation.ReflTransGen StoreStep [] store

/-- Stored score fields are the recomputation from the stored
dimensions (holds for every record the system itself writes). -/
def RecordWF (c : Contract) : Prop :=
  c.health_score = (calculateHealthScore (some (dimsToIn c.health_dimensions))).score ∧
  c.health_tier = (calculateHealthScore (some (dimsToIn c.health_dimensions))).tier ∧
  c.health_tier_label = (calculateHealthScore (some (dimsToIn c.health_dimensions))).tierLabel ∧
  c.score_breakdown = (calculateHealthScore (some (dimsToIn c.health_dimensions))).breakdown

/-! ### Store lemmas -/

theorem saveContract_mem {store : List Contract} {c y : Contract}
    (h : y ∈ saveContract store c) : y ∈ store ∨ y = c := by
  induction store with
  | nil =>
    simp only [saveContract, List.mem_singleton] at h
    exact Or.inr h
  | cons x rest ih =>
    simp only [saveContract] at h
    split_ifs at h with hid
    · rcases List.mem_cons.mp h with h | h
      · exact Or.inr h
      · exact Or.inl (List.mem_cons_of_mem _ h)
    · rcases List.mem_cons.mp h with h | h
      · exact Or.inl (h ▸ List.mem_cons_self _ _)
      · rcases ih h with h' | h'
        · exact Or.inl (List.mem_cons_of_mem _ h')
        · exact Or.inr h'

theorem saveContract_hash_fresh {store : List Contract} {c : Contract}
    (hfresh : ∀ x ∈ store, x.file_hash ≠ c.file_hash) (hinv : HashUnique store) :
    HashUnique (saveContract store c) := by
  induction store with
  | nil => simp [saveContract, HashUnique]
  | cons x rest ih =>
    have hinv' : HashUnique rest := (List.nodup_cons.mp hinv).2
    simp only [saveContract]
    split_ifs with hid
    · simp only [HashUnique, List.map_cons, List.nodup_cons]
      refine ⟨?_, hinv'⟩
      intro hmem
      rcases List.mem_map.mp hmem with ⟨y, hy, hyh⟩
      exact hfresh y (List.mem_cons_of_mem _ hy) hyh
    · simp only [HashUnique, List.map_cons, List.nodup_cons]
      constructor
      · intro hmem
        rcases List.mem_map.mp hmem with ⟨y, hy, hyh⟩
        rcases saveContract_mem hy with h' | h'
        · exact (List.nodup_cons.mp hinv).1 (List.mem_map.mpr ⟨y, h', hyh⟩)
        · exact hfresh x (List.mem_cons_self _ _) (by rw [← hyh, h'])
      · exact ih (fun z hz => hfresh z (List.mem_cons_of_mem _ hz)) hinv'

theorem saveContract_maps_of_same {store : List Contract} {c r : Contract}
    (hid : IdUnique store) (hr : r ∈ store) (hrid : r.contract_id = c.contract_id)
    (hrhash : r.file_hash = c.file_hash) :
    (saveContract store c).map (·.file_hash) = store.map (·.file_hash) ∧
    (saveContract store c).map (·.contract_id) = store.map (·.contract_id) := by
  induction store with
  | nil => cases hr
  | cons x rest ih =>
    simp only [saveContract]
    split_ifs with hx
    · have hxid : x.contract_id = c.contract_id := by simpa using hx
      have hxr : r = x := by
        rcases List.mem_cons.mp hr with h | h
        · exact h
        · exfalso
          have hmem : x.contract_id ∈ rest.map (·.contract_id) :=
            List.mem_map.mpr ⟨r, h, by rw [hrid, hxid]⟩
          exact (List.nodup_cons.mp hid).1 hmem
      subst hxr
      refine ⟨?_, ?_⟩
      · simp only [List.map_cons]
        rw [← hrhash]
      · simp only [List.map_cons]
        rw [← hrid]
    · have hxid : x.contract_id ≠ c.contract_id := by simpa using hx
      have hrrest : r ∈ rest := by
        rcases List.mem_cons.mp hr with h | h
        · exact absurd (h ▸ hrid) hxid
        · exact h
      have hmaps := ih (List.nodup_cons.mp hid).2 hrrest
      constructor <;> simp only [List.map_cons, hmaps.1, hmaps.2]

theorem saveContract_id_nodup {store : List Contract} {c : Contract} (hid : IdUnique store) :
    IdUnique (saveContract store c) := by
  induction store with
  | nil => simp [saveContract, IdUnique]
  | cons x rest ih =>
    simp only [IdUnique, List.map_cons, List.nodup_cons] at hid
    simp only [saveContract]
    split_ifs with hx
    · have hxid : x.contract_id = c.contract_id := by simpa using hx
      simp only [IdUnique, List.map_cons, List.nodup_cons]
      exact ⟨by rw [← hxid]; exact hid.1, hid.2⟩
    · have hxid : x.contract_id ≠ c.contract_id := by simpa using hx
      simp only [IdUnique, List.map_cons, List.nodup_cons]
      refine ⟨?_, ih hid.2⟩
      intro hmem
      rcases List.mem_map.mp hmem with ⟨y, hy, hyh⟩
      rcases saveContract_mem hy with h' | h'
      · exact hid.1 (List.mem_map.mpr ⟨y, h', hyh⟩)
      · exact hxid (by rw [← hyh, h'])

/-- Both store invariants together. -/
def StoreInv (store : List Contract) : Prop := HashUnique store ∧ IdUnique store

theorem filter_storeInv {store : List Contract} (hinv : StoreInv store) (p : Contract → Bool) :
    StoreInv (store.filter p) := by
  have hsub : List.Sublist (store.filter p) store := List.filter_sublist store
  exact ⟨hinv.1.sublist (hsub.map (·.file_hash)), hinv.2.sublist (hsub.map (·.contract_id))⟩

theorem uploadOp_inv (hashFn : String → String) (store : List Contract) (content : String)
    (basicInfo : Option (String × String)) (analysis : Option AnalysisResult)
    (newId uploadDate : String) (fileId : Option String)
    (filename companyData rawData : String) (hinv : StoreInv store) :
    StoreInv (uploadOp hashFn store content basicInfo analysis newId uploadDate fileId
      filename companyData rawData).1 := by
  unfold uploadOp
  rcases hdup : findContractByHash store (hashFn content) with _ | ex
  · rcases basicInfo with _ | ds
    · exact hinv
    · rcases analysis with _ | result
      · exact hinv
      · rcases hval : validateDimensions result.dimensions with _ | e
        · simp only [hval]
          refine ⟨?_, saveContract_id_nodup hinv.2⟩
          apply saveContract_hash_fresh ?_ hinv.1
          intro x hx
          simp only [findContractByHash] at hdup
          have hne := List.find?_eq_none.mp hdup x hx
          simpa [mkContract] using hne
        · simp only [hval]
          exact hinv
  · exact hinv

theorem updateCompanyOp_inv (store : List Contract)
    (contractId newCompanyName companyData : String) (reanalysis : Option AnalysisResult)
    (rawData lastUpdated : String) (hinv : StoreInv store) :
    StoreInv (updateCompanyOp store contractId newCompanyName companyData reanalysis
      rawData lastUpdated).1 := by
  unfold updateCompanyOp
  by_cases htrim : trimWs newCompanyName = ""
  · simp only [if_pos htrim]
    exact hinv
  · simp only [if_neg htrim]
    rcases hfind : findContractById store contractId with _ | ex
    · exact hinv
    · have hexmem : ex ∈ store := by
        simp only [findContractById] at hfind
        exact List.mem_of_find?_eq_some hfind
      rcases hfile : ex.file_id with _ | fid
      · simp only [hfile]
        have hmaps := saveContract_maps_of_same (c := updateCompanyDegraded ex
          newCompanyName companyData lastUpdated) hinv.2 hexmem rfl rfl
        exact ⟨by rw [HashUnique, hmaps.1]; exact hinv.1, saveContract_id_nodup hinv.2⟩
      · simp only [hfile]
        rcases reanalysis with _ | result
        · exact hinv
        · have hmaps := saveContract_maps_of_same (c := updateCompanyFull ex
            newCompanyName companyData result rawData lastUpdated) hinv.2 hexmem rfl rfl
          exact ⟨by rw [HashUnique, hmaps.1]; exact hinv.1, saveContract_id_nodup hinv.2⟩

theorem deleteContractOp_inv (store : List Contract) (contractId : String)
    (hinv : StoreInv store) : StoreInv (deleteContractOp store contractId).1 := by
  unfold deleteContractOp
  dsimp only
  split_ifs
  · exact hinv
  · exact filter_storeInv hinv _

theorem replaceContractOp_inv (store : List Contract) (contractId : String)
    (hinv : StoreInv store) : StoreInv (replaceContractOp store contractId).1 := by
  unfold replaceContractOp
  rcases hfind : findContractById store contractId with _ | ex
  · exact hinv
  · exact filter_storeInv hinv _

theorem storeStep_inv {s s' : List Contract} (hinv : StoreInv s) (hstep : StoreStep s s') :
    StoreInv s' := by
  cases hstep with
  | upload hashFn store content basicInfo analysis newId uploadDate fileId filename companyData rawData =>
    exact uploadOp_inv hashFn s content basicInfo analysis newId uploadDate fileId
      filename companyData rawData hinv
  | update store contractId newCompanyName companyData reanalysis rawData lastUpdated =>
    exact updateCompanyOp_inv s contractId newCompanyName companyData reanalysis
      rawData lastUpdated hinv
  | del store contractId => exact deleteContractOp_inv s contractId hinv
  | repl store contractId => exact replaceContractOp_inv s contractId hinv

theorem reachable_storeInv {s : List Contract} (h : ReachableStore s) : StoreInv s := by
  induction h with
  | refl => exact ⟨List.nodup_nil, List.nodup_nil⟩
  | tail _ hstep ih => exact storeStep_inv ih hstep

/-! ### Recompute idempotence -/

theorem effDims_recompute (inp : Option DimsIn) :
    effDims (some (dimsToIn (effDims inp))) = effDims inp := by
  have h1 : effDims (some (dimsToIn (effDims inp))) =
      { mad := jsOr (some (effDims inp).mad) 0, mao := jsOr (some (effDims inp).mao) 50
        maa := jsOr (some (effDims inp).maa) 50, map := jsOr (some (effDims inp).map) 0 } := rfl
  have hm1 : (effDims inp).mao ≠ 0 := jsOr_ne_zero _
  have hm2 : (effDims inp).maa ≠ 0 := jsOr_ne_zero _
  rw [h1, jsOr_zero_default, jsOr_zero_default, jsOr_of_ne_zero hm1 50, jsOr_of_ne_zero hm2 50]

theorem calculateHealthScore_recompute (inp : Option DimsIn) :
    calculateHealthScore (some (dimsToIn (calculateHealthScore inp).dimensions)) =
      calculateHealthScore inp := by
  have h := effDims_recompute inp
  rw [calculateHealthScore_dims] at *
  simp only [calculateHealthScore, h]

/-- Records written by the upload handler recompute to themselves. -/
theorem mkContract_wf (contractId fileHash : String) (fileId : Option String)
    (filename uploadDate : String) (result : AnalysisResult)
    (documentType sellerCompany rawData companyData : String) :
    RecordWF (mkContract contractId fileHash fileId filename uploadDate result
      documentType sellerCompany rawData companyData) := by
  unfold RecordWF mkContract
  refine ⟨?_, ?_, ?_, ?_⟩ <;> simp only [] <;> rw [calculateHealthScore_recompute]

/-! ### Claim theorems for the record store -/

/-- C8: uploading byte-identical content a second time never creates a
second record — the second upload is answered as a successful duplicate
referencing the first stored record — and every store state reachable
through the handlers keeps all `file_hash` values pairwise distinct. -/
theorem c8_duplicate_suppression :
    (∀ (hashFn : String → String) (store : List Contract) (content : String)
       (basicInfo : Option (String × String)) (analysis : Option AnalysisResult)
       (newId uploadDate : String) (fileId : Option String)
       (filename companyData rawData : String) (ex : Contract),
       findContractByHash store (hashFn content) = some ex →
       uploadOp hashFn store content basicInfo analysis newId uploadDate fileId
           filename companyData rawData = (store, .duplicate ex) ∧
         ex ∈ store ∧ ex.file_hash = hashFn content) ∧
    (∀ store : List Contract, ReachableStore store → HashUnique store) := by
  constructor
  · intro hashFn store content basicInfo analysis newId uploadDate fileId filename
      companyData rawData ex hdup
    refine ⟨?_, ?_, ?_⟩
    · unfold uploadOp
      rw [hdup]
    · simp only [findContractByHash] at hdup
      exact List.mem_of_find?_eq_some hdup
    · simp only [findContractByHash] at hdup
      have hbeq := List.find?_some hdup
      simpa using hbeq
  · intro store h
    exact (reachable_storeInv h).1

/-- A concrete well-formed stored record, used by witnesses. -/
def exampleContract : Contract :=
  { contract_id := "id0", file_hash := "h0", file_id := none, filename := "a.pdf"
    upload_date := "2026-01-01", health_score := 70, health_tier := "B"
    health_tier_label := "標準"
    score_breakdown := { safetyScore := 54, valueScore := 16, bonusPoints := 0 }
    health_dimensions := { mad := 10, mao := 50, maa := 50, map := 20 }
    dimension_explanations := "expl", overall_recommendation := "rec"
    document_type := "合約", seller_company := "ACME", raw_data := "raw"
    company_data := "cd", last_updated := none }

theorem exampleContract_wf : RecordWF exampleContract := by
  have heff : effDims (some (dimsToIn exampleContract.health_dimensions)) =
      { mad := 10, mao := 50, maa := 50, map := 20 } := by
    show effDims (some { mad := some 10, mao := some 50, maa := some 50, map := some 20 }) = _
    rw [effDims_scoreOf]
    norm_num [jsOr]
  have hfs : finalScoreOf { mad := (10:ℚ), mao := 50, maa := 50, map := 20 } = 70 := by
    norm_num [finalScoreOf, rawAfterBreaker, safetyScoreOf, valueScoreOf, bonusOf, jsRound,
      min_def, max_def, Int.floor_eq_iff]
  refine ⟨?_, ?_, ?_, ?_⟩
  · rw [calculateHealthScore_score, heff, hfs]
    rfl
  · rw [calculateHealthScore_tier, heff, hfs]
    norm_num [exampleContract, tierOf]
  · rw [calculateHealthScore_tierLabel, heff, hfs]
    norm_num [exampleContract, tierOf]
  · rw [calculateHealthScore_breakdown, heff]
    have hsafety : roundTo1 (safetyScoreOf { mad := (10:ℚ), mao := 50, maa := 50, map := 20 }) = 54 := by
      rw [show safetyScoreOf { mad := (10:ℚ), mao := 50, maa := 50, map := 20 } = 54 by
        norm_num [safetyScoreOf]]
      rw [roundTo1, show jsRound ((54:ℚ) * 10) = 540 from jsRound_eq (by norm_num) (by norm_num)]
      norm_num
    have hvalue : roundTo1 (valueScoreOf { mad := (10:ℚ), mao := 50, maa := 50, map := 20 }) = 16 := by
      rw [show valueScoreOf { mad := (10:ℚ), mao := 50, maa := 50, map := 20 } = 16 by
        norm_num [valueScoreOf]]
      rw [roundTo1, show jsRound ((16:ℚ) * 10) = 160 from jsRound_eq (by norm_num) (by norm_num)]
      norm_num
    have hbonus : bonusOf { mad := (10:ℚ), mao := 50, maa := 50, map := 20 } = 0 := by
      norm_num [bonusOf]
    rw [hsafety, hvalue, hbonus]
    rfl

/-- C8 witness: the duplicate answer on a one-record store, and the hash
invariant at a reachable state. -/
theorem c8_duplicate_suppression_witness :
    (uploadOp (fun _ => "h0") [exampleContract] "bytes" none none "n1" "d1" none "f1" "c1" "r1" =
        ([exampleContract], UploadOutcome.duplicate exampleContract) ∧
      exampleContract ∈ [exampleContract] ∧
      exampleContract.file_hash = (fun _ => "h0") "bytes") ∧
    HashUnique [] :=
  ⟨c8_duplicate_suppression.1 (fun _ => "h0") [exampleContract] "bytes" none none "n1" "d1"
      none "f1" "c1" "r1" exampleContract (by rfl),
   c8_duplicate_suppression.2 [] Relation.ReflTransGen.refl⟩

/-- C9: updating the counterparty name of a stored record that has no
external document handle (`file_id = none`) replaces only the
counterparty name, background payload and `last_updated`; the health
dimensions stay untouched and the score fields, being recomputed from
the *existing* dimensions, are numerically unchanged; every other field
is unchanged. -/
theorem c9_degraded_update_frame :
    ∀ (store : List Contract) (c : Contract)
      (contractId newName companyData rawData lastUpdated : String)
      (re : Option AnalysisResult),
      findContractById store contractId = some c → c.file_id = none →
      trimWs newName ≠ "" → RecordWF c →
      updateCompanyOp store contractId newName companyData re rawData lastUpdated =
        (saveContract store (updateCompanyDegraded c newName companyData lastUpdated),
         .updated (updateCompanyDegraded c newName companyData lastUpdated)) ∧
      (updateCompanyDegraded c newName companyData lastUpdated).seller_company = newName ∧
      (updateCompanyDegraded c newName companyData lastUpdated).company_data = companyData ∧
      (updateCompanyDegraded c newName companyData lastUpdated).last_updated = some lastUpdated ∧
      (updateCompanyDegraded c newName companyData lastUpdated).health_dimensions = c.health_dimensions ∧
      (updateCompanyDegraded c newName companyData lastUpdated).health_score = c.health_score ∧
      (updateCompanyDegraded c newName companyData lastUpdated).health_tier = c.health_tier ∧
      (updateCompanyDegraded c newName companyData lastUpdated).health_tier_label = c.health_tier_label ∧
      (updateCompanyDegraded c newName companyData lastUpdated).score_breakdown = c.score_breakdown ∧
      (updateCompanyDegraded c newName companyData lastUpdated).contract_id = c.contract_id ∧
      (updateCompanyDegraded c newName companyData lastUpdated).file_hash = c.file_hash ∧
      (updateCompanyDegraded c newName companyData lastUpdated).file_id = c.file_id ∧
      (updateCompanyDegraded c newName companyData lastUpdated).filename = c.filename ∧
      (updateCompanyDegraded c newName companyData lastUpdated).upload_date = c.upload_date ∧
      (updateCompanyDegraded c newName companyData lastUpdated).dimension_explanations = c.dimension_explanations ∧
      (updateCompanyDegraded c newName companyData lastUpdated).overall_recommendation = c.overall_recommendation ∧
      (updateCompanyDegraded c newName companyData lastUpdated).document_type = c.document_type ∧
      (updateCompanyDegraded c newName companyData lastUpdated).raw_data = c.raw_data := by
  intro store c contractId newName companyData rawData lastUpdated re hfind hfile htrim hwf
  refine ⟨?_, rfl, rfl, rfl, rfl, hwf.1.symm, hwf.2.1.symm, hwf.2.2.1.symm, hwf.2.2.2.symm,
    rfl, rfl, hfile.symm ▸ rfl, rfl, rfl, rfl, rfl, rfl, rfl⟩
  simp only [updateCompanyOp, if_neg htrim, hfind, hfile]

/-- C9 witness: the frame property applied to a concrete record. -/
theorem c9_degraded_update_frame_witness :
    (updateCompanyDegraded exampleContract "New Co" "cd2" "t1").health_score =
      exampleContract.health_score ∧
    (updateCompanyDegraded exampleContract "New Co" "cd2" "t1").health_dimensions =
      exampleContract.health_dimensions ∧
    (updateCompanyDegraded exampleContract "New Co" "cd2" "t1").seller_company = "New Co" :=
  ⟨(c9_degraded_update_frame [exampleContract] exampleContract "id0" "New Co" "cd2" "raw2" "t1"
      none (by rfl) rfl (by decide) exampleContract_wf).2.2.2.2.2.1,
   (c9_degraded_update_frame [exampleContract] exampleContract "id0" "New Co" "cd2" "raw2" "t1"
      none (by rfl) rfl (by decide) exampleContract_wf).2.2.2.2.1,
   (c9_degraded_update_frame [exampleContract] exampleContract "id0" "New Co" "cd2" "raw2" "t1"
      none (by rfl) rfl (by decide) exampleContract_wf).2.1⟩

/-! ## Structured-data extractor

`extractJSON` and its repair helpers, over `List Char`. `JSON.parse` is
modelled by an executable recursive-descent JSON parser (JSON numbers
restricted to integers, which is all the backend's payloads use); the
repair regexes are modelled as direct scans with the regexes' matching
semantics (`\s` is `isJsWs`). -/

/-- Strings processed by the extractor. -/
abbrev Str := List Char

/-- A parsed JSON value (numbers as integers). -/
inductive JValue where
  | jnull
  | jbool (b : Bool)
  | jnum (n : ℤ)
  | jstr (s : Str)
  | jarr (elems : List JValue)
  | jobj (members : List (Str × JValue))

/-- JSON inter-token whitespace. -/
def isJsonWs (c : Char) : Bool := c = ' ' ∨ c = '\t' ∨ c = '\n' ∨ c = '\r'

/-- Skip JSON inter-token whitespace. -/
def skipJWs (s : Str) : Str := s.dropWhile isJsonWs

/-- Hexadecimal digit value. -/
def hexVal (c : Char) : Option Nat :=
  if '0' ≤ c ∧ c ≤ '9' then some (c.toNat - 48)
  else if 'a' ≤ c ∧ c ≤ 'f' then some (c.toNat - 87)
  else if 'A' ≤ c ∧ c ≤ 'F' then some (c.toNat - 55)
  else none

/-- Short escape sequences accepted after a backslash in a JSON string. -/
def unescapeChar (e : Char) : Option Char :=
  if e = '"' then some '"'
  else if e = '\\' then some '\\'
  else if e = '/' then some '/'
  else if e = 'b' then some '\x08'
  else if e = 'f' then some '\x0c'
  else if e = 'n' then some '\n'
  else if e = 'r' then some '\r'
  else if e = 't' then some '\t'
  else none

/-- Parse the body of a JSON string (opening quote already consumed),
returning the decoded characters and the remainder after the closing
quote. -/
def parseStringBody : Str → Except Str (Str × Str)
  | [] => .error "Unterminated string in JSON".toList
  | c :: rest =>
    if c = '"' then .ok ([], rest)
    else if c = '\\' then
      match rest with
      | [] => .error "Bad escape in JSON string".toList
      | e :: r =>
        if e = 'u' then
          match r with
          | h1 :: h2 :: h3 :: h4 :: r2 =>
            match hexVal h1, hexVal h2, hexVal h3, hexVal h4 with
            | some a, some b, some c2, some d2 =>
              (parseStringBody r2).map
                (fun p => (Char.ofNat (4096 * a + 256 * b + 16 * c2 + d2) :: p.1, p.2))
            | _, _, _, _ => .error "Bad escape in JSON string".toList
          | _ => .error "Bad escape in JSON string".toList
        else
          match unescapeChar e with
          | some u => (parseStringBody r).map (fun p => (u :: p.1, p.2))
          | none => .error "Bad escape in JSON string".toList
    else if c.toNat < 32 then .error "Bad control character in JSON string".toList
    else (parseStringBody rest).map (fun p => (c :: p.1, p.2))

/-- Digits to a natural number. -/
def digitsToNat (ds : Str) : ℕ := ds.foldl (fun a c => 10 * a + (c.toNat - 48)) 0

/-- Parse a JSON integer literal. -/
def parseNumber (s : Str) : Except Str (JValue × Str) :=
  match s with
  | [] => .error "Bad number in JSON".toList
  | c :: r =>
    if c = '-' then
      if (r.takeWhile Char.isDigit).isEmpty then .error "Bad number in JSON".toList
      else .ok (.jnum (-(digitsToNat (r.takeWhile Char.isDigit) : ℤ)), r.dropWhile Char.isDigit)
    else
      if ((c :: r).takeWhile Char.isDigit).isEmpty then .error "Bad number in JSON".toList
      else .ok (.jnum ((digitsToNat ((c :: r).takeWhile Char.isDigit) : ℤ)),
        (c :: r).dropWhile Char.isDigit)

/-- `Unexpected token` message carrying the offending character. -/
def unexpectedTokenMsg (c : Char) : Str := "Unexpected token ".toList ++ [c]

/-- Fuel-exhaustion message (the fuel passed by `jsonParse` always
suffices for inputs it can parse). -/
def fuelMsg : Str := "JSON input too deeply nested".toList

mutual

/-- Parse one JSON value; returns the value and the unconsumed rest. -/
def parseValue : ℕ → Str → Except Str (JValue × Str)
  | 0, _ => .error fuelMsg
  | Nat.succ f, s =>
    match skipJWs s with
    | [] => .error "Unexpected end of JSON input".toList
    | c :: r =>
      if c = 'n' then
        if ['u','l','l'].isPrefixOf r then .ok (.jnull, r.drop 3)
        else .error (unexpectedTokenMsg c)
      else if c = 't' then
        if ['r','u','e'].isPrefixOf r then .ok (.jbool true, r.drop 3)
        else .error (unexpectedTokenMsg c)
      else if c = 'f' then
        if ['a','l','s','e'].isPrefixOf r then .ok (.jbool false, r.drop 4)
        else .error (unexpectedTokenMsg c)
      else if c = '"' then
        (parseStringBody r).map (fun p => (.jstr p.1, p.2))
      else if c = '[' then
        match skipJWs r with
        | c2 :: r2 =>
          if c2 = ']' then .ok (.jarr [], r2)
          else (parseElems f r).map (fun p => (.jarr p.1, p.2))
        | [] => (parseElems f r).map (fun p => (.jarr p.1, p.2))
      else if c = '{' then
        match skipJWs r with
        | c2 :: r2 =>
          if c2 = '}' then .ok (.jobj [], r2)
          else (parseMembers f r).map (fun p => (.jobj p.1, p.2))
        | [] => (parseMembers f r).map (fun p => (.jobj p.1, p.2))
      else if c = '-' ∨ c.isDigit then parseNumber (c :: r)
      else .error (unexpectedTokenMsg c)

/-- Parse the elements of a nonempty JSON array (opening bracket already
consumed). -/
def parseElems : ℕ → Str → Except Str (List JValue × Str)
  | 0, _ => .error fuelMsg
  | Nat.succ f, s =>
    match parseValue f s with
    | .error e => .error e
    | .ok (v, r) =>
      match skipJWs r with
      | c :: r2 =>
        if c = ',' then
          match parseElems f r2 with
          | .error e => .error e
          | .ok (vs, r3) => .ok (v :: vs, r3)
        else if c = ']' then .ok ([v], r2)
        else .error "Expected comma or closing bracket in JSON array".toList
      | [] => .error "Expected comma or closing bracket in JSON array".toList

/-- Parse the members of a nonempty JSON object (opening brace already
consumed). -/
def parseMembers : ℕ → Str → Except Str (List (Str × JValue) × Str)
  | 0, _ => .error fuelMsg
  | Nat.succ f, s =>
    match skipJWs s with
    | [] => .error "Expected string key in JSON object".toList
    | c0 :: r =>
      if c0 = '"' then
        match parseStringBody r with
        | .error e => .error e
        | .ok (key, r1) =>
          match skipJWs r1 with
          | [] => .error "Expected colon in JSON object".toList
          | c1 :: r2 =>
            if c1 = ':' then
              match parseValue f r2 with
              | .error e => .error e
              | .ok (v, r3) =>
                match skipJWs r3 with
                | [] => .error "Expected comma or closing brace in JSON object".toList
                | c3 :: r4 =>
                  if c3 = ',' then
                    match parseMembers f r4 with
                    | .error e => .error e
                    | .ok (ms, r5) => .ok ((key, v) :: ms, r5)
                  else if c3 = '}' then .ok ([(key, v)], r4)
                  else .error "Expected comma or closing brace in JSON object".toList
            else .error "Expected colon in JSON object".toList
      else .error "Expected string key in JSON object".toList

end

/-- `JSON.parse`: parse a full text as one JSON value with only
whitespace around it. -/
def jsonParse (s : Str) : Except Str JValue :=
  match parseValue (s.length + 1) s with
  | .error e => .error e
  | .ok (v, rest) =>
    if (skipJWs rest).isEmpty then .ok v
    else .error "Unexpected non-whitespace character after JSON".toList

/-! ### Serialisation (`JSON.stringify`, compact), used to state the
round-trip property -/

/-- Hex digit for string escapes. -/
def hexDigit (n : ℕ) : Char := if n < 10 then Char.ofNat (48 + n) else Char.ofNat (87 + n)

/-- How `JSON.stringify` escapes one character inside a string. -/
def escapeChar (c : Char) : Str :=
  if c = '"' then ['\\', '"']
  else if c = '\\' then ['\\', '\\']
  else if c = '\x08' then ['\\', 'b']
  else if c = '\x0c' then ['\\', 'f']
  else if c = '\n' then ['\\', 'n']
  else if c = '\r' then ['\\', 'r']
  else if c = '\t' then ['\\', 't']
  else if c.toNat < 32 then
    ['\\', 'u', '0', '0', hexDigit (c.toNat / 16), hexDigit (c.toNat % 16)]
  else [c]

/-- Escape a whole string body. -/
def escapeStr (s : Str) : Str := (s.map escapeChar).flatten

/-- Fueled digit expansion for `natDigits`. -/
def natDigitsF : ℕ → ℕ → Str
  | 0, _ => []
  | Nat.succ f, n =>
    if n < 10 then [Char.ofNat (48 + n)]
    else natDigitsF f (n / 10) ++ [Char.ofNat (48 + n % 10)]

/-- Decimal digits of a natural number (the fuel of `natDigitsF` is
always sufficient at this call site). -/
def natDigits (n : ℕ) : Str := natDigitsF (n + 1) n

/-- Serialise an integer. -/
def serializeInt (n : ℤ) : Str :=
  if n < 0 then '-' :: natDigits n.natAbs else natDigits n.toNat

mutual

/-- Compact `JSON.stringify`. -/
def serialize : JValue → Str
  | .jnull => ['n','u','l','l']
  | .jbool true => ['t','r','u','e']
  | .jbool false => ['f','a','l','s','e']
  | .jnum n => serializeInt n
  | .jstr s => '"' :: (escapeStr s ++ ['"'])
  | .jarr [] => ['[', ']']
  | .jarr (v :: vs) => '[' :: (serialize v ++ serializeElems vs ++ [']'])
  | .jobj [] => ['{', '}']
  | .jobj (m :: ms) => '{' :: (serializeMember m ++ serializeMembers ms ++ ['}'])

/-- Remaining array elements, each preceded by a comma. -/
def serializeElems : List JValue → Str
  | [] => []
  | v :: vs => ',' :: (serialize v ++ serializeElems vs)

/-- One object member. -/
def serializeMember : Str × JValue → Str
  | (k, v) => '"' :: (escapeStr k ++ [ '"', ':' ] ++ serialize v)

/-- Remaining object members, each preceded by a comma. -/
def serializeMembers : List (Str × JValue) → Str
  | [] => []
  | m :: ms => ',' :: (serializeMember m ++ serializeMembers ms)

end

mutual

/-- Compact serialisation with a trailing comma added after the last
element of every nonempty array and object (the malformation the
round-trip claim quantifies over). -/
def serializeTrail : JValue → Str
  | .jnull => ['n','u','l','l']
  | .jbool true => ['t','r','u','e']
  | .jbool false => ['f','a','l','s','e']
  | .jnum n => serializeInt n
  | .jstr s => '"' :: (escapeStr s ++ ['"'])
  | .jarr [] => ['[', ']']
  | .jarr (v :: vs) => '[' :: (serializeTrail v ++ serializeTrailElems vs ++ [',', ']'])
  | .jobj [] => ['{', '}']
  | .jobj (m :: ms) => '{' :: (serializeTrailMember m ++ serializeTrailMembers ms ++ [',', '}'])

/-- Remaining array elements (trailing-comma form). -/
def serializeTrailElems : List JValue → Str
  | [] => []
  | v :: vs => ',' :: (serializeTrail v ++ serializeTrailElems vs)

/-- One object member (trailing-comma form). -/
def serializeTrailMember : Str × JValue → Str
  | (k, v) => '"' :: (escapeStr k ++ [ '"', ':' ] ++ serializeTrail v)

/-- Remaining object members (trailing-comma form). -/
def serializeTrailMembers : List (Str × JValue) → Str
  | [] => []
  | m :: ms => ',' :: (serializeTrailMember m ++ serializeTrailMembers ms)

end

/-! ### The repair helpers of `fixCommonJSONIssues` / `fixJSONStructure` -/

theorem dropWhile_length_le (p : Char → Bool) (s : Str) :
    (s.dropWhile p).length ≤ s.length := by
  induction s with
  | nil => simp
  | cons c rest ih =>
    by_cases h : p c <;> simp [List.dropWhile, h]
    omega

/-- Drop to (but not including) the next newline. -/
def dropToLineEnd (s : Str) : Str := s.dropWhile (fun c => c ≠ '\n')

/-- Fueled scan for `stripLineComments`. -/
def stripLineCommentsF : ℕ → Str → Str
  | 0, s => s
  | Nat.succ f, s =>
    match s with
    | [] => []
    | c :: rest =>
      if c = '/' ∧ ['/'].isPrefixOf rest then stripLineCommentsF f (dropToLineEnd (rest.drop 1))
      else c :: stripLineCommentsF f rest

/-- The regex `\/\/.*$` with `gm`: on each line, drop everything from
the first `//` to the end of the line. -/
def stripLineComments (s : Str) : Str := stripLineCommentsF (s.length + 1) s

/-- Fueled scan for `indexOfSub` (the fuel, always at least the string
length plus one at the call sites, only makes the recursion
structural). -/
def indexOfSubF : ℕ → Str → Str → Option ℕ
  | 0, _, _ => none
  | Nat.succ f, s, pat =>
    if pat.isPrefixOf s then some 0
    else
      match s with
      | [] => none
      | _ :: rest => (indexOfSubF f rest pat).map (· + 1)

/-- JS `String.prototype.indexOf`: first index at which `pat` occurs in
`s` (0 for the empty pattern). -/
def indexOfSub (s pat : Str) : Option ℕ := indexOfSubF (s.length + 1) s pat

/-- Fueled scan for `stripBlockComments`. -/
def stripBlockCommentsF : ℕ → Str → Str
  | 0, s => s
  | Nat.succ f, s =>
    match s with
    | [] => []
    | c :: rest =>
      if c = '/' ∧ ['*'].isPrefixOf rest then
        match indexOfSub (rest.drop 1) ['*', '/'] with
        | some i => stripBlockCommentsF f ((rest.drop 1).drop (i + 2))
        | none => c :: rest
      else c :: stripBlockCommentsF f rest

/-- The regex `\/\*[\s\S]*?\*\//g`: remove each lazily-matched block
comment (through the first following `*/`); a `/*` with no later `*/`
matches nothing. -/
def stripBlockComments (s : Str) : Str := stripBlockCommentsF (s.length + 1) s

/-- One global pass of `replace(/,(\s*[}\]])/g, "$1")`: each comma
followed by whitespace and a closing brace/bracket is dropped, scanning
resuming after the match. The fuel only makes the recursion structural. -/
def commaPassF : ℕ → Str → Str
  | 0, s => s
  | Nat.succ f, s =>
    match s with
    | [] => []
    | c :: rest =>
      if c = ',' then
        match rest.dropWhile isJsWs with
        | c2 :: r2 =>
          if c2 = '}' ∨ c2 = ']' then rest.takeWhile isJsWs ++ (c2 :: commaPassF f r2)
          else ',' :: commaPassF f rest
        | [] => ',' :: commaPassF f rest
      else c :: commaPassF f rest

/-- One global pass of `replace(/,(\s*[}\]])/g, "$1")` (see
`commaPassF`; the wrapper supplies always-sufficient fuel). -/
def commaPass (s : Str) : Str := commaPassF (s.length + 1) s

/-- `fixCommonJSONIssues`: strip `//` and `/* */` comments, then three
passes of trailing-comma removal. -/
def fixCommonJSONIssues (jsonStr : Str) : Str :=
  commaPass (commaPass (commaPass (stripBlockComments (stripLineComments jsonStr))))

/-- JS `String.prototype.lastIndexOf(pat, fromIdx)`: the largest start
index `≤ fromIdx` at which `pat` occurs. -/
def lastIndexOfSubFrom (s pat : Str) (fromIdx : ℕ) : Option ℕ :=
  ((List.range (min fromIdx s.length + 1)).filter
    (fun i => pat.isPrefixOf (s.drop i))).getLast?

/-- JS `String.prototype.includes`. -/
def containsSub (s pat : Str) : Bool := (indexOfSub s pat).isSome

/-- JS `String.prototype.trim` on raw character lists. -/
def jsTrim (s : Str) : Str := ((s.dropWhile isJsWs).reverse.dropWhile isJsWs).reverse

/-- The regex test `/"[^"]*",\s*$/.test(betweenText)`: the text ends in
a quoted string followed by a comma and optional whitespace. -/
def structureSuffixTest (t : Str) : Bool :=
  match t.reverse.dropWhile isJsWs with
  | ',' :: '"' :: r =>
    match r.dropWhile (fun c => c ≠ '"') with
    | '"' :: _ => true
    | _ => false
  | _ => false

/-- `"overall_recommendation"` with its quotes, as searched for by
`fixJSONStructure`. -/
def orecPat : Str := '"' :: ("overall_recommendation".toList ++ ['"'])

/-- `"map"` with its quotes. -/
def mapPat : Str := '"' :: ("map".toList ++ ['"'])

/-- `fixJSONStructure`: when `"overall_recommendation"` appears to be
wrongly nested right after the `"map"` narrative (a quoted value, a
comma, optional whitespace, and no `},` in between), insert the missing
closing brace before it. -/
def fixJSONStructure (jsonStr : Str) : Str :=
  match indexOfSub jsonStr orecPat with
  | none => jsonStr
  | some overallRecommendationIndex =>
    match lastIndexOfSubFrom jsonStr mapPat overallRecommendationIndex with
    | none => jsonStr
    | some mapIndex =>
      let betweenText := (jsonStr.take overallRecommendationIndex).drop mapIndex
      if structureSuffixTest betweenText ∧ ¬ containsSub betweenText ['}', ','] then
        match lastIndexOfSubFrom jsonStr [','] overallRecommendationIndex with
        | none => jsonStr
        | some commaBeforeOverall =>
          if commaBeforeOverall > mapIndex then
            jsonStr.take commaBeforeOverall ++
              ('\n' :: ' ' :: ' ' :: '}' :: ',' :: '\n' :: ' ' :: ' ' :: []) ++
              jsTrim ((jsonStr.drop commaBeforeOverall).drop 1)
          else jsonStr
      else jsonStr

/-! ### The fenced-code-block regex and `extractJSON` -/

/-- After a candidate closing brace: the regex tail `\s*` followed by
the closing triple backtick. -/
def fenceClose (s : Str) : Bool := ['`','`','`'].isPrefixOf (s.dropWhile isJsWs)

/-- The lazy group `(\{[\s\S]*?\})`: take characters up to the first
closing brace whose remainder matches the regex tail. -/
def takeGroup : Str → Option Str
  | [] => none
  | c :: rest =>
    if c = '}' ∧ fenceClose rest then some ['}']
    else (takeGroup rest).map (c :: ·)

/-- Try the fence regex anchored at this position:
triple backtick, optional `json`, whitespace, then the brace group. -/
def fenceFrom (s : Str) : Option Str :=
  if ['`','`','`'].isPrefixOf s then
    let r1 := s.drop 3
    let r2 := if ['j','s','o','n'].isPrefixOf r1 then r1.drop 4 else r1
    match r2.dropWhile isJsWs with
    | '{' :: r3 => (takeGroup r3).map ('{' :: ·)
    | _ => none
  else none

/-- `text.match(/```(?:json)?\s*(\{[\s\S]*?\})\s*```/)`: the captured
group of the regex match at the earliest start position. -/
def fenceMatch : Str → Option Str
  | [] => none
  | c :: rest =>
    match fenceFrom (c :: rest) with
    | some g => some g
    | none => fenceMatch rest

/-- What `extractJSON` can raise. The final catch block of the brace
stage reads the block-scoped variable `fixed` declared inside the
matching `try`, so instead of the intended diagnostic `Error` it raises
`ReferenceError: fixed is not defined`, which carries neither the parser
message nor any excerpt of the text; that path is
`refErrorFixedNotDefined`. The no-brace path does raise the intended
diagnostic error carrying the original parser message and the first
1000 characters of the response. -/
inductive ExtractError where
  | noJson (origMsg : Str) (excerpt : Str)
  | refErrorFixedNotDefined
deriving DecidableEq, Repr

/-- The first-`{`-to-last-`}` slice stage of `extractJSON` (reached when
the direct parse and the fenced-block stage have failed); `e` is the
original direct-parse error. -/
def extractFromBraces (text : Str) (e : Str) : Except ExtractError JValue :=
  match indexOfSub text ['{'], lastIndexOfSubFrom text ['}'] text.length with
  | some firstBrace, some lastBrace =>
    if lastBrace > firstBrace then
      match jsonParse ((text.take (lastBrace + 1)).drop firstBrace) with
      | .ok v => .ok v
      | .error _ =>
        match jsonParse (fixCommonJSONIssues
            (fixJSONStructure ((text.take (lastBrace + 1)).drop firstBrace))) with
        | .ok v => .ok v
        | .error _ => .error .refErrorFixedNotDefined
    else .error (.noJson e (text.take 1000))
  | _, _ => .error (.noJson e (text.take 1000))

/-- `extractJSON(text)`: direct parse; then the fenced block (parsed
as-is, then with structural and cosmetic repair); then the brace slice
(likewise); each failed stage falls through to the next. -/
def extractJSON (text : Str) : Except ExtractError JValue :=
  match jsonParse text with
  | .ok v => .ok v
  | .error e =>
    match fenceMatch text with
    | some g =>
      match jsonParse g with
      | .ok v => .ok v
      | .error _ =>
        match jsonParse (fixCommonJSONIssues (fixJSONStructure g)) with
        | .ok v => .ok v
        | .error _ => extractFromBraces text e
    | none => extractFromBraces text e

/-! ### Claim theorems for the extractor (concrete evaluations) -/

/-- The fenced wrapper of the round-trip claim: markdown code fencing
around a serialised payload. -/
def wrapFenced (s : Str) : Str := "```json\n".toList ++ s ++ "\n```".toList

/-- C7: the exact malformed input — prose, a json-tagged fence holding
an object with a trailing comma, trailing prose — extracts to
`{"a":1}`. -/
theorem c7_concrete_extraction :
    extractJSON ("Here is the result: ```json\n\x7b\"a\":1,\x7d\n``` thanks".toList) =
      .ok (JValue.jobj [("a".toList, JValue.jnum 1)]) := by
  rfl

/-- C5: on an input with braces on which every stage fails, the final
catch block dereferences the block-scoped `fixed` of the preceding
`try`, so `extractJSON` raises `ReferenceError: fixed is not defined` —
an error carrying neither the original parser message nor any excerpt
of the offending text, contradicting the claimed diagnostics. -/
theorem c5_diagnostics_bug :
    extractJSON ("\x7bnot json\x7d".toList) = .error .refErrorFixedNotDefined ∧
    (∀ origMsg excerpt, ExtractError.refErrorFixedNotDefined ≠ .noJson origMsg excerpt) :=
  ⟨by rfl, fun _ _ h => ExtractError.noConfusion h⟩

/-- C6 counterexample: the object `{"u":"a//b"}` — serialised, fenced,
trailing comma added — does not round-trip: the comment stripper
truncates the string value at `//`, every stage then fails, and
extraction ends in the `ReferenceError` path instead of returning the
object. -/
theorem c6_roundtrip_counterexample :
    extractJSON (wrapFenced (serializeTrail
        (JValue.jobj [("u".toList, JValue.jstr "a//b".toList)]))) =
      .error .refErrorFixedNotDefined := by
  rfl

/-! ### Round-trip analysis: cleanliness predicates and fuel bounds -/

/-- A string character that survives every repair pass: printable
(codepoint at least 32), no comment-opening slash, no fence backtick. -/
def cleanChar (c : Char) : Bool := 32 ≤ c.toNat ∧ c ≠ '/' ∧ c ≠ '`'

/-- After optional JS whitespace a closing brace or bracket follows
(the lookahead of the trailing-comma regex of `commaPass`). -/
def bracketAfterWs (u : Str) : Bool :=
  match u.dropWhile isJsWs with
  | c :: _ => c = '}' ∨ c = ']'
  | [] => false

/-- No comma of the string is followed by whitespace and a closing
brace or bracket (the pattern `commaPass` rewrites). -/
def noCommaBracketPat : Str → Bool
  | [] => true
  | c :: t => (if c = ',' then !bracketAfterWs t else true) && noCommaBracketPat t

/-- A string value or key untouched by every repair pass of
`fixCommonJSONIssues`. -/
def cleanStr (s : Str) : Bool := s.all cleanChar && noCommaBracketPat s

mutual

/-- Every string occurring in the value is `cleanStr`-clean. -/
def cleanJson : JValue → Bool
  | .jnull => true
  | .jbool _ => true
  | .jnum _ => true
  | .jstr s => cleanStr s
  | .jarr es => cleanElems es
  | .jobj ms => cleanMembers ms

/-- `cleanJson` on each element. -/
def cleanElems : List JValue → Bool
  | [] => true
  | v :: vs => cleanJson v && cleanElems vs

/-- `cleanStr` keys and `cleanJson` values. -/
def cleanMembers : List (Str × JValue) → Bool
  | [] => true
  | (k, v) :: ms => cleanStr k && cleanJson v && cleanMembers ms

end

mutual

/-- Fuel sufficient for `parseValue` on the serialisation of the value. -/
def jneed : JValue → ℕ
  | .jnull => 1
  | .jbool _ => 1
  | .jnum _ => 1
  | .jstr _ => 1
  | .jarr [] => 1
  | .jarr (v :: vs) => jneedElems (v :: vs) + 1
  | .jobj [] => 1
  | .jobj (m :: ms) => jneedMembers (m :: ms) + 1

/-- Fuel sufficient for `parseElems` on serialised elements. -/
def jneedElems : List JValue → ℕ
  | [] => 0
  | v :: vs => max (jneed v) (jneedElems vs) + 1

/-- Fuel sufficient for `parseMembers` on serialised members. -/
def jneedMembers : List (Str × JValue) → ℕ
  | [] => 0
  | (_, v) :: ms => max (jneed v) (jneedMembers ms) + 1

end

/-- The serialisation of the value receives a trailing comma (it is a
nonempty array or object at top level). -/
def hasNE : JValue → Bool
  | .jarr (_ :: _) => true
  | .jobj (_ :: _) => true
  | _ => false

/-- The remainder does not begin with a digit, so a number token before
it ends exactly at the boundary. -/
def noDigitStart : Str → Prop
  | [] => True
  | c :: _ => c.isDigit = false

/-! ### Generic list and character lemmas -/

theorem takeWhile_append_all (p : Char → Bool) (a b : Str)
    (h : ∀ c ∈ a, p c = true) : (a ++ b).takeWhile p = a ++ b.takeWhile p := by
  induction a with
  | nil => rfl
  | cons c t ih =>
    have hc : p c = true := h c (by simp)
    simp only [List.cons_append, List.takeWhile, hc]
    exact congrArg (c :: ·) (ih (fun x hx => h x (by simp [hx])))

theorem dropWhile_append_all (p : Char → Bool) (a b : Str)
    (h : ∀ c ∈ a, p c = true) : (a ++ b).dropWhile p = b.dropWhile p := by
  induction a with
  | nil => rfl
  | cons c t ih =>
    have hc : p c = true := h c (by simp)
    simp only [List.cons_append, List.dropWhile, hc]
    exact ih (fun x hx => h x (by simp [hx]))

theorem dropWhile_cons_false {p : Char → Bool} {c : Char} (t : Str) (h : p c = false) :
    (c :: t).dropWhile p = c :: t := by
  simp [List.dropWhile, h]

theorem skipJWs_cons_false {c : Char} (t : Str) (h : isJsonWs c = false) :
    skipJWs (c :: t) = c :: t := by
  simp [skipJWs, List.dropWhile, h]

theorem isDigit_ne {c d : Char} (h : c.isDigit = true) (hd : d.isDigit = false) : c ≠ d :=
  fun he => absurd (he ▸ h) (by simp [hd])

theorem isDigit_not_jsonWs {c : Char} (h : c.isDigit = true) : isJsonWs c = false := by
  by_contra hws
  rw [Bool.not_eq_false] at hws
  simp only [isJsonWs, decide_eq_true_eq] at hws
  rcases hws with h1 | h1 | h1 | h1 <;> rw [h1] at h <;> exact absurd h (by decide)

theorem isDigit_not_jsWs {c : Char} (h : c.isDigit = true) : isJsWs c = false := by
  by_contra hws
  rw [Bool.not_eq_false] at hws
  simp only [isJsWs, decide_eq_true_eq] at hws
  rcases hws with h1|h1|h1|h1|h1|h1|h1|h1|h1|h1|h1|h1|h1|h1|h1|h1|h1|h1|h1|h1|h1|h1|h1|h1|h1 <;> rw [h1] at h <;> exact absurd h (by decide)

/-! ### Decimal digit expansion: totality and round-trip -/

theorem natDigitsF_spec : ∀ (f n : ℕ), 0 < f → n < 10 ^ f →
    natDigitsF f n ≠ [] ∧ (∀ c ∈ natDigitsF f n, c.isDigit = true) ∧
      digitsToNat (natDigitsF f n) = n := by
  intro f
  induction f with
  | zero => intro n h0 _; omega
  | succ f ih =>
    intro n _ hn
    by_cases h10 : n < 10
    · simp only [natDigitsF, if_pos h10]
      refine ⟨by simp, ?_, ?_⟩
      · intro c hc
        rw [List.mem_singleton] at hc
        subst hc
        interval_cases n <;> decide
      · interval_cases n <;> decide
    · simp only [natDigitsF, if_neg h10]
      have hdiv : n / 10 < 10 ^ f := by
        rw [Nat.div_lt_iff_lt_mul (by norm_num)]
        calc n < 10 ^ (f + 1) := hn
        _ = 10 ^ f * 10 := by ring
      have hf : 0 < f := by
        rcases Nat.eq_zero_or_pos f with h0 | h0
        · subst h0
          simp only [pow_zero, Nat.lt_one_iff] at hdiv
          omega
        · exact h0
      obtain ⟨hne, hdig, hval⟩ := ih (n / 10) hf hdiv
      have hm : n % 10 < 10 := Nat.mod_lt _ (by norm_num)
      refine ⟨by simp, ?_, ?_⟩
      · intro c hc
        rw [List.mem_append, List.mem_singleton] at hc
        rcases hc with hc | hc
        · exact hdig c hc
        · subst hc
          set m := n % 10 with hmdef
          interval_cases m <;> decide
      · have happ : digitsToNat (natDigitsF f (n / 10) ++ [Char.ofNat (48 + n % 10)]) =
            10 * digitsToNat (natDigitsF f (n / 10)) +
              ((Char.ofNat (48 + n % 10)).toNat - 48) := by
          simp [digitsToNat, List.foldl_append]
        rw [happ, hval]
        have htn : (Char.ofNat (48 + n % 10)).toNat - 48 = n % 10 := by
          set m := n % 10 with hmdef
          interval_cases m <;> decide
        rw [htn]
        omega

theorem natDigits_spec (n : ℕ) :
    natDigits n ≠ [] ∧ (∀ c ∈ natDigits n, c.isDigit = true) ∧
      digitsToNat (natDigits n) = n := by
  refine natDigitsF_spec (n + 1) n (Nat.succ_pos n) ?_
  calc n < 10 ^ n := Nat.lt_pow_self (by norm_num) n
  _ ≤ 10 ^ (n + 1) := Nat.pow_le_pow_right (by norm_num) (Nat.le_succ n)

theorem serializeInt_ne_nil (n : ℤ) : serializeInt n ≠ [] := by
  unfold serializeInt
  split
  · simp
  · exact (natDigits_spec n.toNat).1

theorem serializeInt_chars (n : ℤ) :
    ∀ c ∈ serializeInt n, c.isDigit = true ∨ c = '-' := by
  unfold serializeInt
  split
  · intro c hc
    rw [List.mem_cons] at hc
    rcases hc with hc | hc
    · exact Or.inr hc
    · exact Or.inl ((natDigits_spec n.natAbs).2.1 c hc)
  · intro c hc
    exact Or.inl ((natDigits_spec n.toNat).2.1 c hc)

/-! ### String-body serialisation round-trip -/

theorem escapeStr_cons (c : Char) (t : Str) :
    escapeStr (c :: t) = escapeChar c ++ escapeStr t := by
  simp [escapeStr]

theorem parseStringBody_quote_escape (X : Str) :
    parseStringBody ('\\' :: '"' :: X) =
      (parseStringBody X).map (fun p => ('"' :: p.1, p.2)) := by
  rw [parseStringBody.eq_def]
  rfl

theorem parseStringBody_backslash_escape (X : Str) :
    parseStringBody ('\\' :: '\\' :: X) =
      (parseStringBody X).map (fun p => ('\\' :: p.1, p.2)) := by
  rw [parseStringBody.eq_def]
  rfl

theorem parseStringBody_plain {c : Char} (X : Str) (h1 : c ≠ '"') (h2 : c ≠ '\\')
    (h3 : 32 ≤ c.toNat) :
    parseStringBody (c :: X) = (parseStringBody X).map (fun p => (c :: p.1, p.2)) := by
  have h4 : ¬ c.toNat < 32 := by omega
  rw [parseStringBody.eq_def]
  dsimp only
  simp only [if_neg h1, if_neg h2, if_neg h4]

theorem escapeChar_clean {c : Char} (h : 32 ≤ c.toNat) :
    escapeChar c =
      if c = '"' then ['\\', '"'] else if c = '\\' then ['\\', '\\'] else [c] := by
  have h8 : c ≠ '\x08' := fun he => by rw [he] at h; exact absurd h (by decide)
  have hc : c ≠ '\x0c' := fun he => by rw [he] at h; exact absurd h (by decide)
  have hn : c ≠ '\n' := fun he => by rw [he] at h; exact absurd h (by decide)
  have hr : c ≠ '\r' := fun he => by rw [he] at h; exact absurd h (by decide)
  have ht : c ≠ '\t' := fun he => by rw [he] at h; exact absurd h (by decide)
  have h32 : ¬ c.toNat < 32 := by omega
  simp only [escapeChar, if_neg h8, if_neg hc, if_neg hn, if_neg hr, if_neg ht, if_neg h32]

theorem parseStringBody_roundtrip : ∀ (s r : Str), (∀ c ∈ s, 32 ≤ c.toNat) →
    parseStringBody (escapeStr s ++ ('"' :: r)) = .ok (s, r)
  | [], _, _ => by
    rw [parseStringBody.eq_def]
    rfl
  | c :: t, r, h => by
    have hc : 32 ≤ c.toNat := h c (by simp)
    have ht : ∀ x ∈ t, 32 ≤ x.toNat := fun x hx => h x (by simp [hx])
    rw [escapeStr_cons, List.append_assoc, escapeChar_clean hc]
    by_cases h1 : c = '"'
    · subst h1
      rw [if_pos rfl]
      show parseStringBody ('\\' :: '"' :: (escapeStr t ++ ('"' :: r))) = _
      rw [parseStringBody_quote_escape, parseStringBody_roundtrip t r ht]
      rfl
    · rw [if_neg h1]
      by_cases h2 : c = '\\'
      · subst h2
        rw [if_pos rfl]
        show parseStringBody ('\\' :: '\\' :: (escapeStr t ++ ('"' :: r))) = _
        rw [parseStringBody_backslash_escape, parseStringBody_roundtrip t r ht]
        rfl
      · rw [if_neg h2]
        show parseStringBody (c :: (escapeStr t ++ ('"' :: r))) = _
        rw [parseStringBody_plain _ h1 h2 hc, parseStringBody_roundtrip t r ht]
        rfl

/-! ### Number serialisation round-trip -/

theorem digits_takeWhile {ds r : Str} (hds : ∀ c ∈ ds, c.isDigit = true)
    (hr : noDigitStart r) :
    (ds ++ r).takeWhile Char.isDigit = ds ∧ (ds ++ r).dropWhile Char.isDigit = r := by
  constructor
  · rw [takeWhile_append_all _ _ _ hds]
    cases r with
    | nil => simp
    | cons c t =>
      have hcd : c.isDigit = false := hr
      simp [List.takeWhile, hcd]
  · rw [dropWhile_append_all _ _ _ hds]
    cases r with
    | nil => rfl
    | cons c t =>
      have hcd : c.isDigit = false := hr
      simp [List.dropWhile, hcd]

theorem parseNumber_neg (r0 : Str) :
    parseNumber ('-' :: r0) =
      if (r0.takeWhile Char.isDigit).isEmpty then .error "Bad number in JSON".toList
      else .ok (.jnum (-(digitsToNat (r0.takeWhile Char.isDigit) : ℤ)),
        r0.dropWhile Char.isDigit) := rfl

theorem parseNumber_pos {c : Char} (r0 : Str) (h : c ≠ '-') :
    parseNumber (c :: r0) =
      if ((c :: r0).takeWhile Char.isDigit).isEmpty then .error "Bad number in JSON".toList
      else .ok (.jnum ((digitsToNat ((c :: r0).takeWhile Char.isDigit) : ℤ)),
        (c :: r0).dropWhile Char.isDigit) := by
  simp only [parseNumber, if_neg h]

theorem parseNumber_roundtrip (n : ℤ) (r : Str) (hr : noDigitStart r) :
    parseNumber (serializeInt n ++ r) = .ok (.jnum n, r) := by
  by_cases hn : n < 0
  · have hser : serializeInt n = '-' :: natDigits n.natAbs := by
      unfold serializeInt
      rw [if_pos hn]
    obtain ⟨hne, hdig, hval⟩ := natDigits_spec n.natAbs
    obtain ⟨htake, hdrop⟩ := digits_takeWhile hdig hr
    rw [hser]
    show parseNumber ('-' :: (natDigits n.natAbs ++ r)) = _
    rw [parseNumber_neg, htake, hdrop]
    have hie : (natDigits n.natAbs).isEmpty = false := by
      cases hd : natDigits n.natAbs with
      | nil => exact absurd hd hne
      | cons a l => rfl
    rw [hie]
    simp only [Bool.false_eq_true, if_false]
    rw [hval]
    have hcast : -((n.natAbs : ℕ) : ℤ) = n := by omega
    rw [hcast]
  · have hser : serializeInt n = natDigits n.toNat := by
      unfold serializeInt
      rw [if_neg hn]
    obtain ⟨hne, hdig, hval⟩ := natDigits_spec n.toNat
    obtain ⟨htake, hdrop⟩ := digits_takeWhile hdig hr
    cases hd : natDigits n.toNat with
    | nil => exact absurd hd hne
    | cons d ds =>
      have hdD : d.isDigit = true := hdig d (by rw [hd]; simp)
      have hdne : d ≠ '-' := isDigit_ne hdD (by decide)
      rw [hser, hd]
      show parseNumber (d :: (ds ++ r)) = _
      rw [parseNumber_pos _ hdne]
      have hcons : d :: (ds ++ r) = (d :: ds) ++ r := rfl
      rw [hcons]
      rw [hd] at htake hdrop
      rw [htake, hdrop]
      have hie : (d :: ds).isEmpty = false := rfl
      rw [hie]
      simp only [Bool.false_eq_true, if_false]
      rw [hd] at hval
      rw [hval]
      have hcast : ((n.toNat : ℕ) : ℤ) = n := by omega
      rw [hcast]

/-! ### Head characters of serialisations -/

/-- The head character starts a token: not whitespace, not a closing
bracket, not a separator, not a backtick or slash. -/
def goodHead : Str → Bool
  | [] => false
  | c :: _ =>
    !isJsonWs c && !isJsWs c && c ≠ ']' && c ≠ '}' && c ≠ ',' && c ≠ '`' && c ≠ '/'

theorem goodHead_cons {c : Char} (t : Str) (h1 : isJsonWs c = false) (h2 : isJsWs c = false)
    (h3 : c ≠ ']') (h4 : c ≠ '}') (h5 : c ≠ ',') (h6 : c ≠ '`') (h7 : c ≠ '/') :
    goodHead (c :: t) = true := by
  simp [goodHead, h1, h2, h3, h4, h5, h6, h7]

theorem goodHead_elim {c : Char} {t : Str} (h : goodHead (c :: t) = true) :
    isJsonWs c = false ∧ isJsWs c = false ∧ c ≠ ']' ∧ c ≠ '}' ∧ c ≠ ',' ∧ c ≠ '`' ∧
      c ≠ '/' := by
  simp only [goodHead, Bool.and_eq_true, Bool.not_eq_true', decide_eq_true_eq] at h
  exact ⟨h.1.1.1.1.1.1, h.1.1.1.1.1.2, h.1.1.1.1.2, h.1.1.1.2, h.1.1.2, h.1.2, h.2⟩

theorem goodHead_digit {c : Char} (t : Str) (h : c.isDigit = true) :
    goodHead (c :: t) = true :=
  goodHead_cons t (isDigit_not_jsonWs h) (isDigit_not_jsWs h) (isDigit_ne h (by decide))
    (isDigit_ne h (by decide)) (isDigit_ne h (by decide)) (isDigit_ne h (by decide))
    (isDigit_ne h (by decide))

theorem goodHead_serializeInt (n : ℤ) : goodHead (serializeInt n) = true := by
  unfold serializeInt
  split
  · exact goodHead_cons _ (by decide) (by decide) (by decide) (by decide) (by decide)
      (by decide) (by decide)
  · obtain ⟨hne, hdig, _⟩ := natDigits_spec n.toNat
    cases hd : natDigits n.toNat with
    | nil => exact absurd hd hne
    | cons d ds => exact goodHead_digit ds (hdig d (by rw [hd]; simp))

theorem serialize_ne_nil (v : JValue) : serialize v ≠ [] := by
  cases v with
  | jnull => simp [serialize]
  | jbool b => cases b <;> simp [serialize]
  | jnum n => simpa [serialize] using serializeInt_ne_nil n
  | jstr s => simp [serialize]
  | jarr es => cases es <;> simp [serialize]
  | jobj ms => cases ms <;> simp [serialize]

theorem goodHead_serialize (v : JValue) : goodHead (serialize v) = true := by
  cases v with
  | jnull =>
    simp only [serialize]
    decide
  | jbool b =>
    cases b <;> simp only [serialize] <;> decide
  | jnum n =>
    simp only [serialize]
    exact goodHead_serializeInt n
  | jstr s =>
    simp only [serialize]
    exact goodHead_cons _ (by decide) (by decide) (by decide) (by decide) (by decide)
      (by decide) (by decide)
  | jarr es =>
    cases es <;> simp only [serialize] <;>
      exact goodHead_cons _ (by decide) (by decide) (by decide) (by decide) (by decide)
        (by decide) (by decide)
  | jobj ms =>
    cases ms <;> simp only [serialize] <;>
      exact goodHead_cons _ (by decide) (by decide) (by decide) (by decide) (by decide)
        (by decide) (by decide)

theorem goodHead_serializeTrail (v : JValue) : goodHead (serializeTrail v) = true := by
  cases v with
  | jnull =>
    simp only [serializeTrail]
    decide
  | jbool b =>
    cases b <;> simp only [serializeTrail] <;> decide
  | jnum n =>
    simp only [serializeTrail]
    exact goodHead_serializeInt n
  | jstr s =>
    simp only [serializeTrail]
    exact goodHead_cons _ (by decide) (by decide) (by decide) (by decide) (by decide)
      (by decide) (by decide)
  | jarr es =>
    cases es <;> simp only [serializeTrail] <;>
      exact goodHead_cons _ (by decide) (by decide) (by decide) (by decide) (by decide)
        (by decide) (by decide)
  | jobj ms =>
    cases ms <;> simp only [serializeTrail] <;>
      exact goodHead_cons _ (by decide) (by decide) (by decide) (by decide) (by decide)
        (by decide) (by decide)

theorem jneed_pos (v : JValue) : 1 ≤ jneed v := by
  cases v with
  | jnull => simp [jneed]
  | jbool b => simp [jneed]
  | jnum n => simp [jneed]
  | jstr s => simp [jneed]
  | jarr es => cases es <;> simp [jneed]
  | jobj ms => cases ms <;> simp [jneed]

theorem cleanStr_ge32 {s : Str} (h : cleanStr s = true) : ∀ c ∈ s, 32 ≤ c.toNat := by
  intro c hcm
  have h1 : s.all cleanChar = true := by
    rw [cleanStr, Bool.and_eq_true] at h
    exact h.1
  have h2 := List.all_eq_true.mp h1 c hcm
  simp only [cleanChar, Bool.and_eq_true, decide_eq_true_eq] at h2
  exact h2.1

/-! ### `parseValue` on serialised atoms -/

theorem isPrefixOf_append (p t : Str) : p.isPrefixOf (p ++ t) = true := by
  induction p with
  | nil => cases t <;> rfl
  | cons c cs ih =>
    rw [List.cons_append, List.isPrefixOf.eq_def]
    dsimp only
    simp [ih]

theorem parseValue_null (f : ℕ) (r : Str) :
    parseValue (f + 1) ('n' :: 'u' :: 'l' :: 'l' :: r) = .ok (.jnull, r) := by
  rw [parseValue.eq_def]
  dsimp only
  rw [skipJWs_cons_false _ (by decide)]
  dsimp only
  rw [if_pos rfl]
  have hp : List.isPrefixOf ['u','l','l'] ('u' :: 'l' :: 'l' :: r) = true :=
    isPrefixOf_append ['u','l','l'] r
  simp [hp]

theorem parseValue_true (f : ℕ) (r : Str) :
    parseValue (f + 1) ('t' :: 'r' :: 'u' :: 'e' :: r) = .ok (.jbool true, r) := by
  rw [parseValue.eq_def]
  dsimp only
  rw [skipJWs_cons_false _ (by decide)]
  dsimp only
  rw [if_neg (by decide), if_pos rfl]
  have hp : List.isPrefixOf ['r','u','e'] ('r' :: 'u' :: 'e' :: r) = true :=
    isPrefixOf_append ['r','u','e'] r
  simp [hp]

theorem parseValue_false (f : ℕ) (r : Str) :
    parseValue (f + 1) ('f' :: 'a' :: 'l' :: 's' :: 'e' :: r) = .ok (.jbool false, r) := by
  rw [parseValue.eq_def]
  dsimp only
  rw [skipJWs_cons_false _ (by decide)]
  dsimp only
  rw [if_neg (by decide), if_neg (by decide), if_pos rfl]
  have hp : List.isPrefixOf ['a','l','s','e'] ('a' :: 'l' :: 's' :: 'e' :: r) = true :=
    isPrefixOf_append ['a','l','s','e'] r
  simp [hp]

theorem parseValue_str (f : ℕ) (s r : Str) (hs : ∀ c ∈ s, 32 ≤ c.toNat) :
    parseValue (f + 1) ('"' :: (escapeStr s ++ ('"' :: r))) = .ok (.jstr s, r) := by
  rw [parseValue.eq_def]
  dsimp only
  rw [skipJWs_cons_false _ (by decide)]
  dsimp only
  rw [if_neg (by decide), if_neg (by decide), if_neg (by decide), if_pos rfl]
  rw [parseStringBody_roundtrip s r hs]
  rfl

theorem parseValue_num (f : ℕ) (n : ℤ) (r : Str) (hr : noDigitStart r) :
    parseValue (f + 1) (serializeInt n ++ r) = .ok (.jnum n, r) := by
  rcases hd : serializeInt n with _ | ⟨c, t⟩
  · exact absurd hd (serializeInt_ne_nil n)
  · have hc : c.isDigit = true ∨ c = '-' := serializeInt_chars n c (by rw [hd]; simp)
    have hne : isJsonWs c = false ∧ c ≠ 'n' ∧ c ≠ 't' ∧ c ≠ 'f' ∧ c ≠ '"' ∧ c ≠ '[' ∧
        c ≠ '{' := by
      rcases hc with hdg | hdash
      · exact ⟨isDigit_not_jsonWs hdg, isDigit_ne hdg (by decide), isDigit_ne hdg (by decide),
          isDigit_ne hdg (by decide), isDigit_ne hdg (by decide), isDigit_ne hdg (by decide),
          isDigit_ne hdg (by decide)⟩
      · subst hdash
        exact ⟨by decide, by decide, by decide, by decide, by decide, by decide, by decide⟩
    obtain ⟨hws, hn, htt, hff, hq, hbr, hbc⟩ := hne
    rw [parseValue.eq_def]
    dsimp only
    rw [List.cons_append, skipJWs_cons_false _ hws]
    dsimp only
    rw [if_neg hn, if_neg htt, if_neg hff, if_neg hq, if_neg hbr, if_neg hbc]
    have hcond : c = '-' ∨ c.isDigit := by
      rcases hc with hdg | hdash
      · exact Or.inr hdg
      · exact Or.inl hdash
    rw [if_pos hcond]
    rw [← List.cons_append, ← hd, parseNumber_roundtrip n r hr]

/-! ### The serialisation round-trip through the parser -/

mutual

theorem parseValue_rt (f : ℕ) (v : JValue) (r : Str) (hf : jneed v ≤ f)
    (hc : cleanJson v = true) (hr : noDigitStart r) :
    parseValue f (serialize v ++ r) = .ok (v, r) := by
  cases f with
  | zero => exact absurd (le_trans (jneed_pos v) hf) (by omega)
  | succ f =>
    cases v with
    | jnull => exact parseValue_null f r
    | jbool b =>
      cases b
      · exact parseValue_false f r
      · exact parseValue_true f r
    | jnum n => exact parseValue_num f n r hr
    | jstr s =>
      have hser : serialize (.jstr s) ++ r = '"' :: (escapeStr s ++ ('"' :: r)) := by
        rw [show serialize (.jstr s) = '"' :: (escapeStr s ++ ['"']) from by simp [serialize]]
        rw [List.cons_append, List.append_assoc]
        rfl
      rw [hser]
      exact parseValue_str f s r (cleanStr_ge32 (by simpa [cleanJson] using hc))
    | jarr es =>
      cases es with
      | nil =>
        show parseValue (f + 1) ('[' :: ']' :: r) = .ok (.jarr [], r)
        rw [parseValue.eq_def]
        dsimp only
        rw [skipJWs_cons_false _ (by decide)]
        dsimp only
        rw [if_neg (by decide), if_neg (by decide), if_neg (by decide), if_neg (by decide),
          if_pos rfl, skipJWs_cons_false _ (by decide)]
        dsimp only
        rw [if_pos rfl]
      | cons v vs =>
        have hser : serialize (.jarr (v :: vs)) ++ r =
            '[' :: (serialize v ++ (serializeElems vs ++ (']' :: r))) := by
          rw [show serialize (.jarr (v :: vs)) =
            '[' :: (serialize v ++ serializeElems vs ++ [']']) from by simp [serialize]]
          rw [List.cons_append, List.append_assoc, List.append_assoc,
            List.singleton_append]
        rw [hser, parseValue.eq_def]
        dsimp only
        rw [skipJWs_cons_false _ (by decide)]
        dsimp only
        rw [if_neg (by decide), if_neg (by decide), if_neg (by decide), if_neg (by decide),
          if_pos rfl]
        have hfe : jneedElems (v :: vs) ≤ f := by
          simp only [jneed] at hf
          omega
        have hcl : cleanJson v = true ∧ cleanElems vs = true := by
          simpa [cleanJson, cleanElems, Bool.and_eq_true] using hc
        rcases hd : serialize v with _ | ⟨c, t⟩
        · exact absurd hd (serialize_ne_nil v)
        · have hgh := goodHead_serialize v
          rw [hd] at hgh
          obtain ⟨hws, _, hrb, _, _, _, _⟩ := goodHead_elim hgh
          rw [List.cons_append, skipJWs_cons_false _ hws]
          dsimp only
          rw [if_neg hrb, ← List.cons_append, ← hd,
            parseElems_rt f v vs r hfe hcl.1 hcl.2]
          rfl
    | jobj ms =>
      cases ms with
      | nil =>
        show parseValue (f + 1) ('{' :: '}' :: r) = .ok (.jobj [], r)
        rw [parseValue.eq_def]
        dsimp only
        rw [skipJWs_cons_false _ (by decide)]
        dsimp only
        rw [if_neg (by decide), if_neg (by decide), if_neg (by decide), if_neg (by decide),
          if_neg (by decide), if_pos rfl, skipJWs_cons_false _ (by decide)]
        dsimp only
        rw [if_pos rfl]
      | cons m ms =>
        obtain ⟨k, v⟩ := m
        have hser : serialize (.jobj ((k, v) :: ms)) ++ r =
            '{' :: (serializeMember (k, v) ++ (serializeMembers ms ++ ('}' :: r))) := by
          rw [show serialize (.jobj ((k, v) :: ms)) =
            '{' :: (serializeMember (k, v) ++ serializeMembers ms ++ ['}']) from
              by simp [serialize]]
          rw [List.cons_append, List.append_assoc, List.append_assoc,
            List.singleton_append]
        rw [hser, parseValue.eq_def]
        dsimp only
        rw [skipJWs_cons_false _ (by decide)]
        dsimp only
        rw [if_neg (by decide), if_neg (by decide), if_neg (by decide), if_neg (by decide),
          if_neg (by decide), if_pos rfl]
        have hfm : jneedMembers ((k, v) :: ms) ≤ f := by
          simp only [jneed] at hf
          omega
        have hcl : cleanStr k = true ∧ cleanJson v = true ∧ cleanMembers ms = true := by
          simpa [cleanJson, cleanMembers, Bool.and_eq_true, and_assoc] using hc
        have hsm : serializeMember (k, v) = '"' :: (escapeStr k ++ ['"', ':'] ++ serialize v) :=
          by simp [serializeMember]
        rw [hsm, List.cons_append, skipJWs_cons_false _ (by decide)]
        dsimp only
        rw [if_neg (by decide), ← List.cons_append, ← hsm,
          parseMembers_rt f k v ms r hfm hcl.1 hcl.2.1 hcl.2.2]
        rfl

theorem parseElems_rt (f : ℕ) (v : JValue) (vs : List JValue) (r : Str)
    (hf : jneedElems (v :: vs) ≤ f) (hcv : cleanJson v = true)
    (hcs : cleanElems vs = true) :
    parseElems f (serialize v ++ (serializeElems vs ++ (']' :: r))) = .ok (v :: vs, r) := by
  cases f with
  | zero =>
    exfalso
    simp only [jneedElems] at hf
    omega
  | succ f =>
    rw [parseElems.eq_def]
    dsimp only
    have hfv : jneed v ≤ f := by
      simp only [jneedElems] at hf
      omega
    have hnd : noDigitStart (serializeElems vs ++ (']' :: r)) := by
      cases vs with
      | nil =>
        show (']').isDigit = false
        decide
      | cons v2 vs2 =>
        rw [show serializeElems (v2 :: vs2) = ',' :: (serialize v2 ++ serializeElems vs2) from
          by simp [serializeElems], List.cons_append]
        show (',').isDigit = false
        decide
    rw [parseValue_rt f v _ hfv hcv hnd]
    dsimp only
    cases vs with
    | nil =>
      have hre : serializeElems [] ++ ((']' :: r) : Str) = ']' :: r := by
        simp [serializeElems]
      rw [hre, skipJWs_cons_false _ (by decide)]
      dsimp only
      rw [if_neg (by decide), if_pos rfl]
    | cons v2 vs2 =>
      have hre : serializeElems (v2 :: vs2) ++ ((']' :: r) : Str) =
          ',' :: (serialize v2 ++ (serializeElems vs2 ++ (']' :: r))) := by
        rw [show serializeElems (v2 :: vs2) = ',' :: (serialize v2 ++ serializeElems vs2) from
          by simp [serializeElems]]
        rw [List.cons_append, List.append_assoc]
      rw [hre, skipJWs_cons_false _ (by decide)]
      dsimp only
      rw [if_pos rfl]
      have hf2 : jneedElems (v2 :: vs2) ≤ f := by
        simp only [jneedElems] at hf ⊢
        omega
      have hc2 : cleanJson v2 = true ∧ cleanElems vs2 = true := by
        simpa [cleanElems, Bool.and_eq_true] using hcs
      rw [parseElems_rt f v2 vs2 r hf2 hc2.1 hc2.2]

theorem parseMembers_rt (f : ℕ) (k : Str) (v : JValue) (ms : List (Str × JValue)) (r : Str)
    (hf : jneedMembers ((k, v) :: ms) ≤ f) (hk : cleanStr k = true)
    (hcv : cleanJson v = true) (hcs : cleanMembers ms = true) :
    parseMembers f (serializeMember (k, v) ++ (serializeMembers ms ++ ('}' :: r))) =
      .ok ((k, v) :: ms, r) := by
  cases f with
  | zero =>
    exfalso
    simp only [jneedMembers] at hf
    omega
  | succ f =>
    have hsm : serializeMember (k, v) ++ ((serializeMembers ms ++ ('}' :: r)) : Str) =
        '"' :: (escapeStr k ++ ('"' :: (':' :: (serialize v ++
          (serializeMembers ms ++ ('}' :: r)))))) := by
      rw [show serializeMember (k, v) = '"' :: (escapeStr k ++ ['"', ':'] ++ serialize v) from
        by simp [serializeMember]]
      rw [List.cons_append, List.append_assoc, List.append_assoc]
      rfl
    rw [hsm, parseMembers.eq_def]
    dsimp only
    rw [skipJWs_cons_false _ (by decide)]
    dsimp only
    rw [if_pos rfl, parseStringBody_roundtrip k _ (cleanStr_ge32 hk)]
    dsimp only
    rw [skipJWs_cons_false _ (by decide)]
    dsimp only
    rw [if_pos rfl]
    have hfv : jneed v ≤ f := by
      simp only [jneedMembers] at hf
      omega
    have hnd : noDigitStart (serializeMembers ms ++ ('}' :: r)) := by
      cases ms with
      | nil =>
        show ('}').isDigit = false
        decide
      | cons m2 ms2 =>
        rw [show serializeMembers (m2 :: ms2) = ',' :: (serializeMember m2 ++ serializeMembers ms2)
          from by simp [serializeMembers], List.cons_append]
        show (',').isDigit = false
        decide
    rw [parseValue_rt f v _ hfv hcv hnd]
    dsimp only
    cases ms with
    | nil =>
      have hre : serializeMembers [] ++ (('}' :: r) : Str) = '}' :: r := by
        simp [serializeMembers]
      rw [hre, skipJWs_cons_false _ (by decide)]
      dsimp only
      rw [if_neg (by decide), if_pos rfl]
    | cons m2 ms2 =>
      obtain ⟨k2, v2⟩ := m2
      have hre : serializeMembers ((k2, v2) :: ms2) ++ (('}' :: r) : Str) =
          ',' :: (serializeMember (k2, v2) ++ (serializeMembers ms2 ++ ('}' :: r))) := by
        rw [show serializeMembers ((k2, v2) :: ms2) =
          ',' :: (serializeMember (k2, v2) ++ serializeMembers ms2) from
            by simp [serializeMembers]]
        rw [List.cons_append, List.append_assoc]
      rw [hre, skipJWs_cons_false _ (by decide)]
      dsimp only
      rw [if_pos rfl]
      have hf2 : jneedMembers ((k2, v2) :: ms2) ≤ f := by
        simp only [jneedMembers] at hf ⊢
        omega
      have hc2 : cleanStr k2 = true ∧ cleanJson v2 = true ∧ cleanMembers ms2 = true := by
        simpa [cleanMembers, Bool.and_eq_true, and_assoc] using hcs
      rw [parseMembers_rt f k2 v2 ms2 r hf2 hc2.1 hc2.2.1 hc2.2.2]

end

/-! ### Fuel bounds against serialisation length -/

mutual

theorem jneed_le_len (v : JValue) : jneed v ≤ (serialize v).length := by
  cases v with
  | jnull => simp [jneed, serialize]
  | jbool b => cases b <;> simp [jneed, serialize]
  | jnum n =>
    have h1 : 0 < (serializeInt n).length :=
      List.length_pos.mpr (serializeInt_ne_nil n)
    simp only [jneed, serialize]
    omega
  | jstr s => simp [jneed, serialize]
  | jarr es =>
    cases es with
    | nil => simp [jneed, serialize]
    | cons v vs =>
      have h1 := jneed_le_len v
      have h2 := jneedElems_le_len vs
      simp only [jneed, jneedElems, serialize, List.length_cons, List.length_append]
      omega
  | jobj ms =>
    cases ms with
    | nil => simp [jneed, serialize]
    | cons m ms =>
      obtain ⟨k, v⟩ := m
      have h1 := jneed_le_len v
      have h2 := jneedMembers_le_len ms
      simp only [jneed, jneedMembers, serialize, serializeMember, List.length_cons,
        List.length_append]
      omega

theorem jneedElems_le_len (vs : List JValue) : jneedElems vs ≤ (serializeElems vs).length := by
  cases vs with
  | nil => simp [jneedElems, serializeElems]
  | cons v vs =>
    have h1 := jneed_le_len v
    have h2 := jneedElems_le_len vs
    simp only [jneedElems, serializeElems, List.length_cons, List.length_append]
    omega

theorem jneedMembers_le_len (ms : List (Str × JValue)) :
    jneedMembers ms ≤ (serializeMembers ms).length := by
  cases ms with
  | nil => simp [jneedMembers, serializeMembers]
  | cons m ms =>
    obtain ⟨k, v⟩ := m
    have h1 := jneed_le_len v
    have h2 := jneedMembers_le_len ms
    simp only [jneedMembers, serializeMembers, serializeMember, List.length_cons,
      List.length_append]
    omega

end

mutual

theorem serialize_len_le_trail (v : JValue) :
    (serialize v).length ≤ (serializeTrail v).length := by
  cases v with
  | jnull => simp [serialize, serializeTrail]
  | jbool b => cases b <;> simp [serialize, serializeTrail]
  | jnum n => simp [serialize, serializeTrail]
  | jstr s => simp [serialize, serializeTrail]
  | jarr es =>
    cases es with
    | nil => simp [serialize, serializeTrail]
    | cons v vs =>
      have h1 := serialize_len_le_trail v
      have h2 := serializeElems_len_le_trail vs
      simp only [serialize, serializeTrail, List.length_cons, List.length_append]
      omega
  | jobj ms =>
    cases ms with
    | nil => simp [serialize, serializeTrail]
    | cons m ms =>
      obtain ⟨k, v⟩ := m
      have h1 := serialize_len_le_trail v
      have h2 := serializeMembers_len_le_trail ms
      simp only [serialize, serializeTrail, serializeMember, serializeTrailMember,
        List.length_cons, List.length_append]
      omega

theorem serializeElems_len_le_trail (vs : List JValue) :
    (serializeElems vs).length ≤ (serializeTrailElems vs).length := by
  cases vs with
  | nil => simp [serializeElems, serializeTrailElems]
  | cons v vs =>
    have h1 := serialize_len_le_trail v
    have h2 := serializeElems_len_le_trail vs
    simp only [serializeElems, serializeTrailElems, List.length_cons, List.length_append]
    omega

theorem serializeMembers_len_le_trail (ms : List (Str × JValue)) :
    (serializeMembers ms).length ≤ (serializeTrailMembers ms).length := by
  cases ms with
  | nil => simp [serializeMembers, serializeTrailMembers]
  | cons m ms =>
    obtain ⟨k, v⟩ := m
    have h1 := serialize_len_le_trail v
    have h2 := serializeMembers_len_le_trail ms
    simp only [serializeMembers, serializeTrailMembers, serializeMember,
      serializeTrailMember, List.length_cons, List.length_append]
    omega

end

/-- `JSON.parse` succeeds on the exact serialisation of a clean value. -/
theorem jsonParse_serialize (v : JValue) (hc : cleanJson v = true) :
    jsonParse (serialize v) = .ok v := by
  have h := parseValue_rt ((serialize v).length + 1) v []
    (by have := jneed_le_len v; omega) hc trivial
  rw [List.append_nil] at h
  rw [jsonParse.eq_def, h]
  rfl

/-! ### The trailing-comma serialisation makes the parser fail -/

theorem serializeTrail_ne_nil (v : JValue) : serializeTrail v ≠ [] := by
  cases v with
  | jnull => simp [serializeTrail]
  | jbool b => cases b <;> simp [serializeTrail]
  | jnum n => simpa [serializeTrail] using serializeInt_ne_nil n
  | jstr s => simp [serializeTrail]
  | jarr es => cases es <;> simp [serializeTrail]
  | jobj ms => cases ms <;> simp [serializeTrail]

theorem serializeTrail_eq_serialize {v : JValue} (h : hasNE v = false) :
    serializeTrail v = serialize v := by
  cases v with
  | jnull => rfl
  | jbool b => cases b <;> rfl
  | jnum n => simp [serialize, serializeTrail]
  | jstr s => simp [serialize, serializeTrail]
  | jarr es =>
    cases es with
    | nil => simp [serialize, serializeTrail]
    | cons v vs => simp [hasNE] at h
  | jobj ms =>
    cases ms with
    | nil => simp [serialize, serializeTrail]
    | cons m ms => simp [hasNE] at h

theorem parseValue_rbracket_err (f : ℕ) (r : Str) :
    ∃ e, parseValue f (']' :: r) = .error e := by
  cases f with
  | zero => exact ⟨fuelMsg, by rw [parseValue.eq_def]⟩
  | succ f =>
    refine ⟨unexpectedTokenMsg ']', ?_⟩
    rw [parseValue.eq_def]
    dsimp only
    rw [skipJWs_cons_false _ (by decide)]
    dsimp only
    rw [if_neg (by decide), if_neg (by decide), if_neg (by decide), if_neg (by decide),
      if_neg (by decide), if_neg (by decide), if_neg (by decide)]

theorem parseElems_rbracket_err (f : ℕ) (r : Str) :
    ∃ e, parseElems f (']' :: r) = .error e := by
  cases f with
  | zero => exact ⟨fuelMsg, by rw [parseElems.eq_def]⟩
  | succ f =>
    obtain ⟨e, he⟩ := parseValue_rbracket_err f r
    refine ⟨e, ?_⟩
    rw [parseElems.eq_def]
    dsimp only
    rw [he]

theorem parseMembers_rbrace_err (f : ℕ) (r : Str) :
    ∃ e, parseMembers f ('}' :: r) = .error e := by
  cases f with
  | zero => exact ⟨fuelMsg, by rw [parseMembers.eq_def]⟩
  | succ f =>
    refine ⟨"Expected string key in JSON object".toList, ?_⟩
    rw [parseMembers.eq_def]
    dsimp only
    rw [skipJWs_cons_false _ (by decide)]
    dsimp only
    rw [if_neg (by decide)]

mutual

theorem parseValue_terr (f : ℕ) (v : JValue) (r : Str) (hne : hasNE v = true)
    (hf : jneed v ≤ f) (hc : cleanJson v = true) :
    ∃ e, parseValue f (serializeTrail v ++ r) = .error e := by
  cases f with
  | zero => exact absurd (le_trans (jneed_pos v) hf) (by omega)
  | succ f =>
    cases v with
    | jnull => simp [hasNE] at hne
    | jbool b => simp [hasNE] at hne
    | jnum n => simp [hasNE] at hne
    | jstr s => simp [hasNE] at hne
    | jarr es =>
      cases es with
      | nil => simp [hasNE] at hne
      | cons v vs =>
        have hser : serializeTrail (.jarr (v :: vs)) ++ r =
            '[' :: (serializeTrail v ++ (serializeTrailElems vs ++ (',' :: ']' :: r))) := by
          rw [show serializeTrail (.jarr (v :: vs)) =
            '[' :: (serializeTrail v ++ serializeTrailElems vs ++ [',', ']']) from
              by simp [serializeTrail]]
          rw [List.cons_append, List.append_assoc, List.append_assoc]
          rfl
        rw [hser, parseValue.eq_def]
        dsimp only
        rw [skipJWs_cons_false _ (by decide)]
        dsimp only
        rw [if_neg (by decide), if_neg (by decide), if_neg (by decide), if_neg (by decide),
          if_pos rfl]
        have hfe : jneedElems (v :: vs) ≤ f := by
          simp only [jneed] at hf
          omega
        have hcl : cleanJson v = true ∧ cleanElems vs = true := by
          simpa [cleanJson, cleanElems, Bool.and_eq_true] using hc
        obtain ⟨e, he⟩ := parseElems_terr f v vs r hfe hcl.1 hcl.2
        refine ⟨e, ?_⟩
        rcases hd : serializeTrail v with _ | ⟨c, t⟩
        · exact absurd hd (serializeTrail_ne_nil v)
        · have hgh := goodHead_serializeTrail v
          rw [hd] at hgh
          obtain ⟨hws, _, hrb, _, _, _, _⟩ := goodHead_elim hgh
          rw [hd] at he
          rw [List.cons_append, skipJWs_cons_false _ hws]
          dsimp only
          rw [if_neg hrb, ← List.cons_append, he]
          rfl
    | jobj ms =>
      cases ms with
      | nil => simp [hasNE] at hne
      | cons m ms =>
        obtain ⟨k, v⟩ := m
        have hser : serializeTrail (.jobj ((k, v) :: ms)) ++ r =
            '{' :: (serializeTrailMember (k, v) ++
              (serializeTrailMembers ms ++ (',' :: '}' :: r))) := by
          rw [show serializeTrail (.jobj ((k, v) :: ms)) =
            '{' :: (serializeTrailMember (k, v) ++ serializeTrailMembers ms ++ [',', '}']) from
              by simp [serializeTrail]]
          rw [List.cons_append, List.append_assoc, List.append_assoc]
          rfl
        rw [hser, parseValue.eq_def]
        dsimp only
        rw [skipJWs_cons_false _ (by decide)]
        dsimp only
        rw [if_neg (by decide), if_neg (by decide), if_neg (by decide), if_neg (by decide),
          if_neg (by decide), if_pos rfl]
        have hfm : jneedMembers ((k, v) :: ms) ≤ f := by
          simp only [jneed] at hf
          omega
        have hcl : cleanStr k = true ∧ cleanJson v = true ∧ cleanMembers ms = true := by
          simpa [cleanJson, cleanMembers, Bool.and_eq_true, and_assoc] using hc
        obtain ⟨e, he⟩ := parseMembers_terr f k v ms r hfm hcl.1 hcl.2.1 hcl.2.2
        refine ⟨e, ?_⟩
        have hsm : serializeTrailMember (k, v) =
            '"' :: (escapeStr k ++ ['"', ':'] ++ serializeTrail v) := by
          simp [serializeTrailMember]
        rw [hsm, List.cons_append, skipJWs_cons_false _ (by decide)]
        dsimp only
        rw [if_neg (by decide), ← List.cons_append, ← hsm, he]
        rfl

theorem parseElems_terr (f : ℕ) (v : JValue) (vs : List JValue) (r : Str)
    (hf : jneedElems (v :: vs) ≤ f) (hcv : cleanJson v = true)
    (hcs : cleanElems vs = true) :
    ∃ e, parseElems f (serializeTrail v ++ (serializeTrailElems vs ++ (',' :: ']' :: r))) =
      .error e := by
  cases f with
  | zero => exact ⟨fuelMsg, by rw [parseElems.eq_def]⟩
  | succ f =>
    have hfv : jneed v ≤ f := by
      simp only [jneedElems] at hf
      omega
    by_cases hnev : hasNE v = true
    · obtain ⟨e, he⟩ := parseValue_terr f v
        (serializeTrailElems vs ++ (',' :: ']' :: r)) hnev hfv hcv
      refine ⟨e, ?_⟩
      rw [parseElems.eq_def]
      dsimp only
      rw [he]
    · rw [Bool.not_eq_true] at hnev
      rw [serializeTrail_eq_serialize hnev]
      have hnd : noDigitStart (serializeTrailElems vs ++ (',' :: ']' :: r)) := by
        cases vs with
        | nil =>
          show (',').isDigit = false
          decide
        | cons v2 vs2 =>
          rw [show serializeTrailElems (v2 :: vs2) =
            ',' :: (serializeTrail v2 ++ serializeTrailElems vs2) from
              by simp [serializeTrailElems], List.cons_append]
          show (',').isDigit = false
          decide
      rw [parseElems.eq_def]
      dsimp only
      rw [parseValue_rt f v _ hfv hcv hnd]
      dsimp only
      cases vs with
      | nil =>
        have hre : serializeTrailElems [] ++ ((',' :: ']' :: r) : Str) = ',' :: ']' :: r := by
          simp [serializeTrailElems]
        obtain ⟨e, he⟩ := parseElems_rbracket_err f r
        refine ⟨e, ?_⟩
        rw [hre, skipJWs_cons_false _ (by decide)]
        dsimp only
        rw [if_pos rfl, he]
      | cons v2 vs2 =>
        have hre : serializeTrailElems (v2 :: vs2) ++ ((',' :: ']' :: r) : Str) =
            ',' :: (serializeTrail v2 ++ (serializeTrailElems vs2 ++ (',' :: ']' :: r))) := by
          rw [show serializeTrailElems (v2 :: vs2) =
            ',' :: (serializeTrail v2 ++ serializeTrailElems vs2) from
              by simp [serializeTrailElems]]
          rw [List.cons_append, List.append_assoc]
        have hf2 : jneedElems (v2 :: vs2) ≤ f := by
          simp only [jneedElems] at hf ⊢
          omega
        have hc2 : cleanJson v2 = true ∧ cleanElems vs2 = true := by
          simpa [cleanElems, Bool.and_eq_true] using hcs
        obtain ⟨e, he⟩ := parseElems_terr f v2 vs2 r hf2 hc2.1 hc2.2
        refine ⟨e, ?_⟩
        rw [hre, skipJWs_cons_false _ (by decide)]
        dsimp only
        rw [if_pos rfl, he]

theorem parseMembers_terr (f : ℕ) (k : Str) (v : JValue) (ms : List (Str × JValue)) (r : Str)
    (hf : jneedMembers ((k, v) :: ms) ≤ f) (hk : cleanStr k = true)
    (hcv : cleanJson v = true) (hcs : cleanMembers ms = true) :
    ∃ e, parseMembers f (serializeTrailMember (k, v) ++
      (serializeTrailMembers ms ++ (',' :: '}' :: r))) = .error e := by
  cases f with
  | zero => exact ⟨fuelMsg, by rw [parseMembers.eq_def]⟩
  | succ f =>
    have hsm : serializeTrailMember (k, v) ++
        ((serializeTrailMembers ms ++ (',' :: '}' :: r)) : Str) =
        '"' :: (escapeStr k ++ ('"' :: (':' :: (serializeTrail v ++
          (serializeTrailMembers ms ++ (',' :: '}' :: r)))))) := by
      rw [show serializeTrailMember (k, v) =
        '"' :: (escapeStr k ++ ['"', ':'] ++ serializeTrail v) from by simp [serializeTrailMember]]
      rw [List.cons_append, List.append_assoc, List.append_assoc]
      rfl
    have hfv : jneed v ≤ f := by
      simp only [jneedMembers] at hf
      omega
    by_cases hnev : hasNE v = true
    · obtain ⟨e, he⟩ := parseValue_terr f v
        (serializeTrailMembers ms ++ (',' :: '}' :: r)) hnev hfv hcv
      refine ⟨e, ?_⟩
      rw [hsm, parseMembers.eq_def]
      dsimp only
      rw [skipJWs_cons_false _ (by decide)]
      dsimp only
      rw [if_pos rfl, parseStringBody_roundtrip k _ (cleanStr_ge32 hk)]
      dsimp only
      rw [skipJWs_cons_false _ (by decide)]
      dsimp only
      rw [if_pos rfl, he]
    · rw [Bool.not_eq_true] at hnev
      have hnd : noDigitStart (serializeTrailMembers ms ++ (',' :: '}' :: r)) := by
        cases ms with
        | nil =>
          show (',').isDigit = false
          decide
        | cons m2 ms2 =>
          rw [show serializeTrailMembers (m2 :: ms2) =
            ',' :: (serializeTrailMember m2 ++ serializeTrailMembers ms2) from
              by simp [serializeTrailMembers], List.cons_append]
          show (',').isDigit = false
          decide
      rw [hsm, serializeTrail_eq_serialize hnev, parseMembers.eq_def]
      dsimp only
      rw [skipJWs_cons_false _ (by decide)]
      dsimp only
      rw [if_pos rfl, parseStringBody_roundtrip k _ (cleanStr_ge32 hk)]
      dsimp only
      rw [skipJWs_cons_false _ (by decide)]
      dsimp only
      rw [if_pos rfl, parseValue_rt f v _ hfv hcv hnd]
      dsimp only
      cases ms with
      | nil =>
        have hre : serializeTrailMembers [] ++ ((',' :: '}' :: r) : Str) = ',' :: '}' :: r := by
          simp [serializeTrailMembers]
        obtain ⟨e, he⟩ := parseMembers_rbrace_err f r
        refine ⟨e, ?_⟩
        rw [hre, skipJWs_cons_false _ (by decide)]
        dsimp only
        rw [if_pos rfl, he]
      | cons m2 ms2 =>
        obtain ⟨k2, v2⟩ := m2
        have hre : serializeTrailMembers ((k2, v2) :: ms2) ++ ((',' :: '}' :: r) : Str) =
            ',' :: (serializeTrailMember (k2, v2) ++
              (serializeTrailMembers ms2 ++ (',' :: '}' :: r))) := by
          rw [show serializeTrailMembers ((k2, v2) :: ms2) =
            ',' :: (serializeTrailMember (k2, v2) ++ serializeTrailMembers ms2) from
              by simp [serializeTrailMembers]]
          rw [List.cons_append, List.append_assoc]
        have hf2 : jneedMembers ((k2, v2) :: ms2) ≤ f := by
          simp only [jneedMembers] at hf ⊢
          omega
        have hc2 : cleanStr k2 = true ∧ cleanJson v2 = true ∧ cleanMembers ms2 = true := by
          simpa [cleanMembers, Bool.and_eq_true, and_assoc] using hcs
        obtain ⟨e, he⟩ := parseMembers_terr f k2 v2 ms2 r hf2 hc2.1 hc2.2.1 hc2.2.2
        refine ⟨e, ?_⟩
        rw [hre, skipJWs_cons_false _ (by decide)]
        dsimp only
        rw [if_pos rfl, he]

end

/-- `JSON.parse` fails on the trailing-comma serialisation of a clean
nonempty container. -/
theorem jsonParse_serializeTrail_err (v : JValue) (hne : hasNE v = true)
    (hc : cleanJson v = true) : ∃ e, jsonParse (serializeTrail v) = .error e := by
  have hflen : jneed v ≤ (serializeTrail v).length + 1 := by
    have h1 := jneed_le_len v
    have h2 := serialize_len_le_trail v
    omega
  obtain ⟨e, he⟩ := parseValue_terr ((serializeTrail v).length + 1) v [] hne hflen hc
  rw [List.append_nil] at he
  exact ⟨e, by rw [jsonParse.eq_def, he]⟩

/-! ### Characters of clean serialisations -/

theorem cleanStr_all {s : Str} (h : cleanStr s = true) : ∀ c ∈ s, cleanChar c = true := by
  intro c hcm
  have h1 : s.all cleanChar = true := by
    rw [cleanStr, Bool.and_eq_true] at h
    exact h.1
  exact List.all_eq_true.mp h1 c hcm

theorem cleanStr_ncbp {s : Str} (h : cleanStr s = true) : noCommaBracketPat s = true := by
  rw [cleanStr, Bool.and_eq_true] at h
  exact h.2

theorem escapeChar_chars {c : Char} (hc : cleanChar c = true) :
    ∀ x ∈ escapeChar c, x ≠ '/' ∧ x ≠ '`' := by
  have hp : 32 ≤ c.toNat ∧ c ≠ '/' ∧ c ≠ '`' := by
    simpa [cleanChar, Bool.and_eq_true, decide_eq_true_eq] using hc
  rw [escapeChar_clean hp.1]
  intro x hx
  by_cases h1 : c = '"'
  · rw [if_pos h1] at hx
    rcases (by simpa using hx : x = '\\' ∨ x = '"') with h | h <;> subst h <;>
      exact ⟨by decide, by decide⟩
  · rw [if_neg h1] at hx
    by_cases h2 : c = '\\'
    · rw [if_pos h2] at hx
      have hxe : x = '\\' := by simpa using hx
      subst hxe
      exact ⟨by decide, by decide⟩
    · rw [if_neg h2] at hx
      have hxe : x = c := by simpa using hx
      subst hxe
      exact ⟨hp.2.1, hp.2.2⟩

theorem escapeStr_chars {s : Str} (hs : ∀ c ∈ s, cleanChar c = true) :
    ∀ x ∈ escapeStr s, x ≠ '/' ∧ x ≠ '`' := by
  induction s with
  | nil => intro x hx; simp [escapeStr] at hx
  | cons c t ih =>
    intro x hx
    rw [escapeStr_cons, List.mem_append] at hx
    rcases hx with hx | hx
    · exact escapeChar_chars (hs c (by simp)) x hx
    · exact ih (fun y hy => hs y (by simp [hy])) x hx

theorem natDigits_chars (n : ℕ) : ∀ x ∈ natDigits n, x ≠ '/' ∧ x ≠ '`' := by
  intro x hx
  have hd := (natDigits_spec n).2.1 x hx
  exact ⟨isDigit_ne hd (by decide), isDigit_ne hd (by decide)⟩

theorem serializeInt_noslash (n : ℤ) : ∀ x ∈ serializeInt n, x ≠ '/' ∧ x ≠ '`' := by
  intro x hx
  rcases serializeInt_chars n x hx with hd | hd
  · exact ⟨isDigit_ne hd (by decide), isDigit_ne hd (by decide)⟩
  · subst hd
    exact ⟨by decide, by decide⟩

theorem cleanMembers_cons {m : Str × JValue} {ms : List (Str × JValue)}
    (h : cleanMembers (m :: ms) = true) :
    cleanStr m.1 = true ∧ cleanJson m.2 = true ∧ cleanMembers ms = true := by
  obtain ⟨k, v⟩ := m
  simpa [cleanMembers, Bool.and_eq_true, and_assoc] using h

theorem serializeTrailMembers_cons (m : Str × JValue) (ms : List (Str × JValue)) :
    serializeTrailMembers (m :: ms) =
      ',' :: (serializeTrailMember m ++ serializeTrailMembers ms) := by
  obtain ⟨k, v⟩ := m
  simp [serializeTrailMembers]

theorem serializeTrail_jobj_cons (m : Str × JValue) (ms : List (Str × JValue)) :
    serializeTrail (.jobj (m :: ms)) =
      '{' :: (serializeTrailMember m ++ serializeTrailMembers ms ++ [',', '}']) := by
  obtain ⟨k, v⟩ := m
  simp [serializeTrail]

theorem serializeTrailMember_eq (m : Str × JValue) :
    serializeTrailMember m =
      '"' :: (escapeStr m.1 ++ ['"', ':'] ++ serializeTrail m.2) := by
  obtain ⟨k, v⟩ := m
  simp [serializeTrailMember]

mutual

theorem serializeTrail_chars (v : JValue) (hc : cleanJson v = true) :
    ∀ x ∈ serializeTrail v, x ≠ '/' ∧ x ≠ '`' := by
  cases v with
  | jnull =>
    intro x hx
    rw [show serializeTrail .jnull = ['n','u','l','l'] from rfl] at hx
    constructor <;> intro he <;> subst he <;> simp at hx
  | jbool b =>
    intro x hx
    cases b
    · rw [show serializeTrail (.jbool false) = ['f','a','l','s','e'] from rfl] at hx
      constructor <;> intro he <;> subst he <;> simp at hx
    · rw [show serializeTrail (.jbool true) = ['t','r','u','e'] from rfl] at hx
      constructor <;> intro he <;> subst he <;> simp at hx
  | jnum n =>
    intro x hx
    rw [show serializeTrail (.jnum n) = serializeInt n from by simp [serializeTrail]] at hx
    exact serializeInt_noslash n x hx
  | jstr s =>
    intro x hx
    rw [show serializeTrail (.jstr s) = '"' :: (escapeStr s ++ ['"']) from
      by simp [serializeTrail]] at hx
    rcases List.mem_cons.mp hx with hx | hx
    · subst hx; exact ⟨by decide, by decide⟩
    · rcases List.mem_append.mp hx with hx | hx
      · exact escapeStr_chars (cleanStr_all (by simpa [cleanJson] using hc)) x hx
      · have : x = '"' := by simpa using hx
        subst this
        exact ⟨by decide, by decide⟩
  | jarr es =>
    cases es with
    | nil =>
      intro x hx
      rw [show serializeTrail (.jarr []) = ['[',']'] from rfl] at hx
      constructor <;> intro he <;> subst he <;> simp at hx
    | cons v vs =>
      intro x hx
      have hcl : cleanJson v = true ∧ cleanElems vs = true := by
        simpa [cleanJson, cleanElems, Bool.and_eq_true] using hc
      rw [show serializeTrail (.jarr (v :: vs)) =
        '[' :: (serializeTrail v ++ serializeTrailElems vs ++ [',', ']']) from
          by simp [serializeTrail]] at hx
      rcases List.mem_cons.mp hx with hx | hx
      · subst hx; exact ⟨by decide, by decide⟩
      · rcases List.mem_append.mp hx with hx | hx
        · rcases List.mem_append.mp hx with hx | hx
          · exact serializeTrail_chars v hcl.1 x hx
          · exact serializeTrailElems_chars vs hcl.2 x hx
        · rcases (by simpa using hx : x = ',' ∨ x = ']') with h | h <;> subst h <;>
            exact ⟨by decide, by decide⟩
  | jobj ms =>
    cases ms with
    | nil =>
      intro x hx
      rw [show serializeTrail (.jobj []) = ['{','}'] from rfl] at hx
      constructor <;> intro he <;> subst he <;> simp at hx
    | cons m ms =>
      intro x hx
      have hcl : cleanStr m.1 = true ∧ cleanJson m.2 = true ∧ cleanMembers ms = true :=
        cleanMembers_cons (by simpa [cleanJson] using hc)
      rw [serializeTrail_jobj_cons] at hx
      rcases List.mem_cons.mp hx with hx | hx
      · subst hx; exact ⟨by decide, by decide⟩
      · rcases List.mem_append.mp hx with hx | hx
        · rcases List.mem_append.mp hx with hx | hx
          · exact serializeTrailMember_chars m hcl.1 hcl.2.1 x hx
          · exact serializeTrailMembers_chars ms hcl.2.2 x hx
        · rcases (by simpa using hx : x = ',' ∨ x = '}') with h | h <;> subst h <;>
            exact ⟨by decide, by decide⟩
termination_by sizeOf v

theorem serializeTrailElems_chars (vs : List JValue) (hc : cleanElems vs = true) :
    ∀ x ∈ serializeTrailElems vs, x ≠ '/' ∧ x ≠ '`' := by
  cases vs with
  | nil => intro x hx; simp [serializeTrailElems] at hx
  | cons v vs =>
    intro x hx
    have hcl : cleanJson v = true ∧ cleanElems vs = true := by
      simpa [cleanElems, Bool.and_eq_true] using hc
    rw [show serializeTrailElems (v :: vs) =
      ',' :: (serializeTrail v ++ serializeTrailElems vs) from by simp [serializeTrailElems]] at hx
    rcases List.mem_cons.mp hx with hx | hx
    · subst hx; exact ⟨by decide, by decide⟩
    · rcases List.mem_append.mp hx with hx | hx
      · exact serializeTrail_chars v hcl.1 x hx
      · exact serializeTrailElems_chars vs hcl.2 x hx
termination_by sizeOf vs

theorem serializeTrailMember_chars (m : Str × JValue) (hk : cleanStr m.1 = true)
    (hv : cleanJson m.2 = true) :
    ∀ x ∈ serializeTrailMember m, x ≠ '/' ∧ x ≠ '`' := by
  intro x hx
  rw [serializeTrailMember_eq] at hx
  rcases List.mem_cons.mp hx with hx | hx
  · subst hx; exact ⟨by decide, by decide⟩
  · rcases List.mem_append.mp hx with hx | hx
    · rcases List.mem_append.mp hx with hx | hx
      · exact escapeStr_chars (cleanStr_all hk) x hx
      · rcases (by simpa using hx : x = '"' ∨ x = ':') with h | h <;> subst h <;>
          exact ⟨by decide, by decide⟩
    · exact serializeTrail_chars m.2 hv x hx
termination_by sizeOf m
decreasing_by
  obtain ⟨k, v⟩ := m
  simp

theorem serializeTrailMembers_chars (ms : List (Str × JValue)) (hc : cleanMembers ms = true) :
    ∀ x ∈ serializeTrailMembers ms, x ≠ '/' ∧ x ≠ '`' := by
  cases ms with
  | nil => intro x hx; simp [serializeTrailMembers] at hx
  | cons m ms =>
    intro x hx
    have hcl : cleanStr m.1 = true ∧ cleanJson m.2 = true ∧ cleanMembers ms = true :=
      cleanMembers_cons hc
    rw [serializeTrailMembers_cons] at hx
    rcases List.mem_cons.mp hx with hx | hx
    · subst hx; exact ⟨by decide, by decide⟩
    · rcases List.mem_append.mp hx with hx | hx
      · exact serializeTrailMember_chars m hcl.1 hcl.2.1 x hx
      · exact serializeTrailMembers_chars ms hcl.2.2 x hx
termination_by sizeOf ms

end

/-! ### The comment strippers are the identity on slash-free text -/

theorem stripLineCommentsF_id : ∀ (f : ℕ) (s : Str), s.length < f →
    (∀ c ∈ s, c ≠ '/') → stripLineCommentsF f s = s := by
  intro f
  induction f with
  | zero => intro s hf _; omega
  | succ f ih =>
    intro s hf hs
    cases s with
    | nil => rw [stripLineCommentsF.eq_def]
    | cons c rest =>
      rw [stripLineCommentsF.eq_def]
      dsimp only
      rw [if_neg (fun h => hs c (by simp) h.1)]
      have h1 : rest.length < f := by
        simp only [List.length_cons] at hf
        omega
      rw [ih rest h1 (fun y hy => hs y (by simp [hy]))]

theorem stripBlockCommentsF_id : ∀ (f : ℕ) (s : Str), s.length < f →
    (∀ c ∈ s, c ≠ '/') → stripBlockCommentsF f s = s := by
  intro f
  induction f with
  | zero => intro s hf _; omega
  | succ f ih =>
    intro s hf hs
    cases s with
    | nil => rw [stripBlockCommentsF.eq_def]
    | cons c rest =>
      rw [stripBlockCommentsF.eq_def]
      dsimp only
      rw [if_neg (fun h => hs c (by simp) h.1)]
      have h1 : rest.length < f := by
        simp only [List.length_cons] at hf
        omega
      rw [ih rest h1 (fun y hy => hs y (by simp [hy]))]

theorem stripLineComments_id {s : Str} (hs : ∀ c ∈ s, c ≠ '/') :
    stripLineComments s = s :=
  stripLineCommentsF_id _ s (by omega) hs

theorem stripBlockComments_id {s : Str} (hs : ∀ c ∈ s, c ≠ '/') :
    stripBlockComments s = s :=
  stripBlockCommentsF_id _ s (by omega) hs

/-! ### The trailing-comma pass: step lemmas and fuel irrelevance -/

theorem bracketAfterWs_cons_ws {c : Char} (u : Str) (h : isJsWs c = true) :
    bracketAfterWs (c :: u) = bracketAfterWs u := by
  simp [bracketAfterWs, List.dropWhile, h]

theorem bracketAfterWs_cons_nonws {c : Char} (u : Str) (h : isJsWs c = false) :
    bracketAfterWs (c :: u) = (decide (c = '}') || decide (c = ']')) := by
  simp [bracketAfterWs, List.dropWhile, h]

theorem commaPassF_nil (f : ℕ) : commaPassF (f + 1) [] = [] := by
  rw [commaPassF.eq_def]

theorem commaPassF_cons (f : ℕ) (c : Char) (rest : Str) :
    commaPassF (f + 1) (c :: rest) =
      if c = ',' then
        match rest.dropWhile isJsWs with
        | c2 :: r2 =>
          if c2 = '}' ∨ c2 = ']' then rest.takeWhile isJsWs ++ (c2 :: commaPassF f r2)
          else ',' :: commaPassF f rest
        | [] => ',' :: commaPassF f rest
      else c :: commaPassF f rest := by
  rw [commaPassF.eq_def]

theorem commaPassF_irrel : ∀ (f : ℕ) (g : ℕ) (s : Str), s.length < f → s.length < g →
    commaPassF f s = commaPassF g s := by
  intro f
  induction f with
  | zero => intro g s hf _; omega
  | succ f ih =>
    intro g s hf hg
    cases g with
    | zero => omega
    | succ g =>
      cases s with
      | nil => rw [commaPassF_nil, commaPassF_nil]
      | cons c rest =>
        rw [commaPassF_cons, commaPassF_cons]
        have h1 : rest.length < f := by
          simp only [List.length_cons] at hf
          omega
        have h2 : rest.length < g := by
          simp only [List.length_cons] at hg
          omega
        cases hdw : rest.dropWhile isJsWs with
        | nil => rw [ih g rest h1 h2]
        | cons c2 r2 =>
          have h3 : r2.length < rest.length := by
            have := dropWhile_length_le isJsWs rest
            rw [hdw] at this
            simp only [List.length_cons] at this
            omega
          dsimp only
          rw [ih g rest h1 h2, ih g r2 (by omega) (by omega)]

theorem commaPass_nil : commaPass [] = [] := rfl

theorem commaPass_cons_nomatch {c : Char} (rest : Str)
    (h : c = ',' → bracketAfterWs rest = false) :
    commaPass (c :: rest) = c :: commaPass rest := by
  rw [commaPass, commaPass]
  rw [show ((c :: rest).length + 1 : ℕ) = rest.length + 1 + 1 from by simp]
  rw [commaPassF_cons]
  by_cases hc : c = ','
  · cases hdw : rest.dropWhile isJsWs with
    | nil =>
      rw [if_pos hc]
      dsimp only
      rw [hc]
    | cons c2 r2 =>
      have hbaw := h hc
      rw [bracketAfterWs, hdw] at hbaw
      have hnb : ¬ (c2 = '}' ∨ c2 = ']') := by
        simpa using hbaw
      rw [if_pos hc]
      dsimp only
      rw [if_neg hnb, hc]
  · rw [if_neg hc]

theorem commaPass_cons_match (rest r2 : Str) {c2 : Char}
    (hdw : rest.dropWhile isJsWs = c2 :: r2) (hb : c2 = '}' ∨ c2 = ']') :
    commaPass (',' :: rest) = rest.takeWhile isJsWs ++ (c2 :: commaPass r2) := by
  rw [commaPass, commaPass]
  rw [show ((',' :: rest).length + 1 : ℕ) = rest.length + 1 + 1 from by simp]
  rw [commaPassF_cons, if_pos rfl, hdw]
  dsimp only
  rw [if_pos hb]
  have h3 : r2.length < rest.length := by
    have := dropWhile_length_le isJsWs rest
    rw [hdw] at this
    simp only [List.length_cons] at this
    omega
  rw [commaPassF_irrel (rest.length + 1) (r2.length + 1) r2 (by omega) (by omega)]

/-! ### Where the trailing-comma regex cannot match -/

/-- No comma of `s` — followed by the rest of `s` and then `r` — has
the bracket-after-whitespace lookahead of the trailing-comma regex. -/
def NoMatchIn (s r : Str) : Prop :=
  ∀ t1 t2, s = t1 ++ (',' :: t2) → bracketAfterWs (t2 ++ r) = false

theorem NM_nil (r : Str) : NoMatchIn [] r := by
  intro t1 t2 h
  cases t1 <;> simp at h

theorem NM_cons {c : Char} {t r : Str} :
    NoMatchIn (c :: t) r ↔
      (c = ',' → bracketAfterWs (t ++ r) = false) ∧ NoMatchIn t r := by
  constructor
  · intro h
    refine ⟨fun hc => ?_, fun t1 t2 ht => ?_⟩
    · subst hc
      exact h [] t rfl
    · exact h (c :: t1) t2 (by rw [ht]; rfl)
  · rintro ⟨h1, h2⟩ t1 t2 ht
    cases t1 with
    | nil =>
      rw [List.nil_append] at ht
      injection ht with hc hte
      subst hc
      exact hte ▸ h1 rfl
    | cons a t1 =>
      rw [List.cons_append] at ht
      injection ht with hca hte
      exact h2 t1 t2 hte

theorem NM_of_no_comma {s : Str} (h : ∀ c ∈ s, c ≠ ',') (r : Str) : NoMatchIn s r := by
  intro t1 t2 ht
  exact absurd rfl (h ',' (by rw [ht]; simp))

theorem NM_singleton_comma {r : Str} (h : bracketAfterWs r = false) : NoMatchIn [','] r := by
  intro t1 t2 ht
  cases t1 with
  | nil =>
    rw [List.nil_append] at ht
    injection ht with h1 h2
    rw [← h2, List.nil_append]
    exact h
  | cons a t1 =>
    rw [List.cons_append] at ht
    injection ht with h1 h2
    cases t1 <;> simp at h2

theorem NM_append_intro {a b r : Str} (ha : NoMatchIn a (b ++ r)) (hb : NoMatchIn b r) :
    NoMatchIn (a ++ b) r := by
  intro t1 t2 ht
  rcases List.append_eq_append_iff.mp ht with ⟨w, hw1, hw2⟩ | ⟨w, hw1, hw2⟩
  · exact hb w t2 hw2
  · cases w with
    | nil =>
      rw [List.nil_append] at hw2
      exact hb [] t2 (by rw [← hw2, List.nil_append])
    | cons x u =>
      rw [List.cons_append] at hw2
      injection hw2 with hx hu
      subst hx
      have := ha t1 u hw1
      rw [hu, List.append_assoc]
      exact this

/-- `commaPass` distributes over a match-free chunk. -/
theorem CP1 : ∀ (s r : Str), NoMatchIn s r → commaPass (s ++ r) = s ++ commaPass r
  | [], _, _ => rfl
  | c :: t, r, h => by
    rw [List.cons_append,
      commaPass_cons_nomatch _ (fun hc => (NM_cons.mp h).1 hc),
      CP1 t r (NM_cons.mp h).2]
    rfl

theorem cleanStr_cons {c : Char} {t : Str} (h : cleanStr (c :: t) = true) :
    cleanChar c = true ∧ cleanStr t = true ∧ (c = ',' → bracketAfterWs t = false) := by
  rw [cleanStr, Bool.and_eq_true] at h
  obtain ⟨hall, hncbp⟩ := h
  rw [List.all_cons, Bool.and_eq_true] at hall
  simp only [noCommaBracketPat] at hncbp
  rw [Bool.and_eq_true] at hncbp
  refine ⟨hall.1, ?_, ?_⟩
  · rw [cleanStr, Bool.and_eq_true]
    exact ⟨hall.2, hncbp.2⟩
  · intro hc
    have h1 := hncbp.1
    rw [if_pos hc] at h1
    simpa using h1

/-- The lookahead through an escaped clean string with its closing
quote never sees a bracket when the raw lookahead does not. -/
theorem bk_esc : ∀ (t r' : Str), (∀ x ∈ t, cleanChar x = true) →
    bracketAfterWs t = false → bracketAfterWs (escapeStr t ++ ('"' :: r')) = false := by
  intro t
  induction t with
  | nil =>
    intro r' _ _
    show bracketAfterWs ('"' :: r') = false
    rw [bracketAfterWs_cons_nonws _ (by decide)]
    rfl
  | cons c t ih =>
    intro r' hall hb
    have hc : cleanChar c = true := hall c (by simp)
    have h32 : 32 ≤ c.toNat ∧ c ≠ '/' ∧ c ≠ '`' := by
      simpa [cleanChar, Bool.and_eq_true, decide_eq_true_eq] using hc
    rw [escapeStr_cons, List.append_assoc]
    by_cases hws : isJsWs c = true
    · have hq : c ≠ '"' := fun he => by rw [he] at hws; exact absurd hws (by decide)
      have hbs : c ≠ '\\' := fun he => by rw [he] at hws; exact absurd hws (by decide)
      rw [escapeChar_clean h32.1, if_neg hq, if_neg hbs, List.singleton_append]
      rw [bracketAfterWs_cons_ws _ hws]
      rw [bracketAfterWs_cons_ws _ hws] at hb
      exact ih r' (fun x hx => hall x (by simp [hx])) hb
    · rw [Bool.not_eq_true] at hws
      have hnws : isJsWs c = false := hws
      rw [bracketAfterWs_cons_nonws _ hnws] at hb
      have hcb : ¬ c = '}' ∧ ¬ c = ']' := by simpa using hb
      rw [escapeChar_clean h32.1]
      by_cases h1 : c = '"'
      · rw [if_pos h1]
        show bracketAfterWs ('\\' :: ('"' :: (escapeStr t ++ ('"' :: r')))) = false
        rw [bracketAfterWs_cons_nonws _ (by decide)]
        rfl
      · rw [if_neg h1]
        by_cases h2 : c = '\\'
        · rw [if_pos h2]
          show bracketAfterWs ('\\' :: ('\\' :: (escapeStr t ++ ('"' :: r')))) = false
          rw [bracketAfterWs_cons_nonws _ (by decide)]
          rfl
        · rw [if_neg h2, List.singleton_append]
          rw [bracketAfterWs_cons_nonws _ hnws]
          simp [hcb.1, hcb.2]

/-- No trailing-comma match starts inside an escaped clean string with
its closing quote following. -/
theorem NM_escape : ∀ (s : Str), cleanStr s = true → ∀ (r' : Str),
    NoMatchIn (escapeStr s) ('"' :: r') := by
  intro s
  induction s with
  | nil => intro _ r'; exact NM_nil _
  | cons c t ih =>
    intro hcs r'
    obtain ⟨hc, hct, hcb⟩ := cleanStr_cons hcs
    rw [escapeStr_cons]
    refine NM_append_intro ?_ (ih hct r')
    have h32 : 32 ≤ c.toNat ∧ c ≠ '/' ∧ c ≠ '`' := by
      simpa [cleanChar, Bool.and_eq_true, decide_eq_true_eq] using hc
    rw [escapeChar_clean h32.1]
    by_cases h1 : c = '"'
    · rw [if_pos h1]
      refine NM_of_no_comma ?_ _
      intro x hx
      rcases (by simpa using hx : x = '\\' ∨ x = '"') with h | h <;> subst h <;> decide
    · rw [if_neg h1]
      by_cases h2 : c = '\\'
      · rw [if_pos h2]
        refine NM_of_no_comma ?_ _
        intro x hx
        have hxe : x = '\\' := by simpa using hx
        subst hxe
        decide
      · rw [if_neg h2]
        by_cases h3 : c = ','
        · subst h3
          exact NM_singleton_comma (bk_esc t r' (cleanStr_all hct) (hcb rfl))
        · refine NM_of_no_comma ?_ _
          intro x hx
          have hxe : x = c := by simpa using hx
          subst hxe
          exact h3

/-! ### No trailing-comma match inside a clean compact serialisation -/

theorem serializeMember_eq (m : Str × JValue) :
    serializeMember m = '"' :: (escapeStr m.1 ++ ['"', ':'] ++ serialize m.2) := by
  obtain ⟨k, v⟩ := m
  simp [serializeMember]

theorem serializeMembers_cons (m : Str × JValue) (ms : List (Str × JValue)) :
    serializeMembers (m :: ms) = ',' :: (serializeMember m ++ serializeMembers ms) := by
  obtain ⟨k, v⟩ := m
  simp [serializeMembers]

theorem serialize_jobj_cons (m : Str × JValue) (ms : List (Str × JValue)) :
    serialize (.jobj (m :: ms)) =
      '{' :: (serializeMember m ++ serializeMembers ms ++ ['}']) := by
  obtain ⟨k, v⟩ := m
  simp [serialize]

mutual

theorem NM_serialize (v : JValue) (hc : cleanJson v = true) (r : Str) :
    NoMatchIn (serialize v) r := by
  cases v with
  | jnull =>
    refine NM_of_no_comma ?_ _
    intro x hx
    rw [show serialize .jnull = ['n','u','l','l'] from by simp [serialize]] at hx
    intro he; subst he; simp at hx
  | jbool b =>
    refine NM_of_no_comma ?_ _
    intro x hx
    cases b
    · rw [show serialize (.jbool false) = ['f','a','l','s','e'] from by simp [serialize]] at hx
      intro he; subst he; simp at hx
    · rw [show serialize (.jbool true) = ['t','r','u','e'] from by simp [serialize]] at hx
      intro he; subst he; simp at hx
  | jnum n =>
    refine NM_of_no_comma ?_ _
    intro x hx
    rw [show serialize (.jnum n) = serializeInt n from by simp [serialize]] at hx
    rcases serializeInt_chars n x hx with hd | hd
    · exact isDigit_ne hd (by decide)
    · subst hd; decide
  | jstr s =>
    rw [show serialize (.jstr s) = '"' :: (escapeStr s ++ ['"']) from by simp [serialize]]
    rw [NM_cons]
    refine ⟨fun hc' => absurd hc' (by decide), ?_⟩
    refine NM_append_intro ?_ (NM_of_no_comma ?_ _)
    · exact NM_escape s (by simpa [cleanJson] using hc) r
    · intro x hx
      have hxe : x = '"' := by simpa using hx
      subst hxe
      decide
  | jarr es =>
    cases es with
    | nil =>
      refine NM_of_no_comma ?_ _
      intro x hx
      rw [show serialize (.jarr []) = ['[',']'] from by simp [serialize]] at hx
      intro he; subst he; simp at hx
    | cons v vs =>
      have hcl : cleanJson v = true ∧ cleanElems vs = true := by
        simpa [cleanJson, cleanElems, Bool.and_eq_true] using hc
      rw [show serialize (.jarr (v :: vs)) =
        '[' :: (serialize v ++ serializeElems vs ++ [']']) from by simp [serialize]]
      rw [NM_cons]
      refine ⟨fun hc' => absurd hc' (by decide), ?_⟩
      rw [List.append_assoc]
      refine NM_append_intro (NM_serialize v hcl.1 _) ?_
      refine NM_append_intro (NM_serializeElems vs hcl.2 _) (NM_of_no_comma ?_ _)
      intro x hx
      have hxe : x = ']' := by simpa using hx
      subst hxe
      decide
  | jobj ms =>
    cases ms with
    | nil =>
      refine NM_of_no_comma ?_ _
      intro x hx
      rw [show serialize (.jobj []) = ['{','}'] from by simp [serialize]] at hx
      intro he; subst he; simp at hx
    | cons m ms =>
      have hcl := cleanMembers_cons (by simpa [cleanJson] using hc)
      rw [serialize_jobj_cons, NM_cons]
      refine ⟨fun hc' => absurd hc' (by decide), ?_⟩
      rw [List.append_assoc]
      refine NM_append_intro (NM_serializeMember m hcl.1 hcl.2.1 _) ?_
      refine NM_append_intro (NM_serializeMembers ms hcl.2.2 _) (NM_of_no_comma ?_ _)
      intro x hx
      have hxe : x = '}' := by simpa using hx
      subst hxe
      decide
termination_by sizeOf v

theorem NM_serializeElems (vs : List JValue) (hc : cleanElems vs = true) (r : Str) :
    NoMatchIn (serializeElems vs) r := by
  cases vs with
  | nil => exact NM_nil r
  | cons v vs =>
    have hcl : cleanJson v = true ∧ cleanElems vs = true := by
      simpa [cleanElems, Bool.and_eq_true] using hc
    rw [show serializeElems (v :: vs) = ',' :: (serialize v ++ serializeElems vs) from
      by simp [serializeElems]]
    rw [NM_cons]
    constructor
    · intro _
      rcases hd : serialize v with _ | ⟨c, t⟩
      · exact absurd hd (serialize_ne_nil v)
      · have hgh := goodHead_serialize v
        rw [hd] at hgh
        obtain ⟨_, hws2, hrb, hrc, _, _, _⟩ := goodHead_elim hgh
        rw [List.cons_append, List.cons_append, bracketAfterWs_cons_nonws _ hws2]
        simp [hrb, hrc]
    · exact NM_append_intro (NM_serialize v hcl.1 _) (NM_serializeElems vs hcl.2 _)
termination_by sizeOf vs

theorem NM_serializeMember (m : Str × JValue) (hk : cleanStr m.1 = true)
    (hv : cleanJson m.2 = true) (r : Str) : NoMatchIn (serializeMember m) r := by
  rw [serializeMember_eq, NM_cons]
  refine ⟨fun hc' => absurd hc' (by decide), ?_⟩
  rw [List.append_assoc]
  refine NM_append_intro ?_ ?_
  · exact NM_escape m.1 hk (':' :: (serialize m.2 ++ r))
  · refine NM_append_intro (NM_of_no_comma ?_ _) (NM_serialize m.2 hv _)
    intro x hx
    rcases (by simpa using hx : x = '"' ∨ x = ':') with h | h <;> subst h <;> decide
termination_by sizeOf m
decreasing_by
  obtain ⟨k, v⟩ := m
  simp

theorem NM_serializeMembers (ms : List (Str × JValue)) (hc : cleanMembers ms = true)
    (r : Str) : NoMatchIn (serializeMembers ms) r := by
  cases ms with
  | nil => exact NM_nil r
  | cons m ms =>
    have hcl := cleanMembers_cons hc
    rw [serializeMembers_cons, NM_cons]
    constructor
    · intro _
      rw [serializeMember_eq, List.cons_append, List.cons_append,
        bracketAfterWs_cons_nonws _ (by decide)]
      rfl
    · exact NM_append_intro (NM_serializeMember m hcl.1 hcl.2.1 _)
        (NM_serializeMembers ms hcl.2.2 _)
termination_by sizeOf ms

end

/-- `commaPass` leaves a clean compact serialisation untouched and
continues after it. -/
theorem cpSer (v : JValue) (hc : cleanJson v = true) (r : Str) :
    commaPass (serialize v ++ r) = serialize v ++ commaPass r :=
  CP1 _ _ (NM_serialize v hc r)

/-! ### One `commaPass` repairs the trailing-comma serialisation -/

mutual

theorem cpT_v (v : JValue) (hc : cleanJson v = true) (r : Str) :
    commaPass (serializeTrail v ++ r) = serialize v ++ commaPass r := by
  cases hne : hasNE v with
  | false =>
    rw [serializeTrail_eq_serialize hne]
    exact cpSer v hc r
  | true =>
    cases v with
    | jnull => simp [hasNE] at hne
    | jbool b => simp [hasNE] at hne
    | jnum n => simp [hasNE] at hne
    | jstr s => simp [hasNE] at hne
    | jarr es =>
      cases es with
      | nil => simp [hasNE] at hne
      | cons v vs =>
        have hcl : cleanJson v = true ∧ cleanElems vs = true := by
          simpa [cleanJson, cleanElems, Bool.and_eq_true] using hc
        have hser : serializeTrail (.jarr (v :: vs)) ++ r =
            '[' :: (serializeTrail v ++ (serializeTrailElems vs ++ (',' :: ']' :: r))) := by
          rw [show serializeTrail (.jarr (v :: vs)) =
            '[' :: (serializeTrail v ++ serializeTrailElems vs ++ [',', ']']) from
              by simp [serializeTrail]]
          rw [List.cons_append, List.append_assoc, List.append_assoc]
          rfl
        rw [hser, commaPass_cons_nomatch _ (fun h => absurd h (by decide)),
          cpT_v v hcl.1 _, cpT_es vs ']' (Or.inr rfl) hcl.2 r]
        rw [show serialize (.jarr (v :: vs)) =
          '[' :: (serialize v ++ serializeElems vs ++ [']']) from by simp [serialize]]
        rw [List.cons_append, List.append_assoc, List.append_assoc]
        rfl
    | jobj ms =>
      cases ms with
      | nil => simp [hasNE] at hne
      | cons m ms =>
        have hcl := cleanMembers_cons (by simpa [cleanJson] using hc)
        have hser : serializeTrail (.jobj (m :: ms)) ++ r =
            '{' :: (serializeTrailMember m ++
              (serializeTrailMembers ms ++ (',' :: '}' :: r))) := by
          rw [serializeTrail_jobj_cons, List.cons_append, List.append_assoc,
            List.append_assoc]
          rfl
        rw [hser, commaPass_cons_nomatch _ (fun h => absurd h (by decide)),
          cpT_m m hcl.1 hcl.2.1 _, cpT_ms ms '}' (Or.inl rfl) hcl.2.2 r]
        rw [serialize_jobj_cons, List.cons_append, List.append_assoc, List.append_assoc]
        rfl
termination_by sizeOf v

theorem cpT_es (vs : List JValue) (B : Char) (hB : B = '}' ∨ B = ']')
    (hc : cleanElems vs = true) (r : Str) :
    commaPass (serializeTrailElems vs ++ (',' :: B :: r)) =
      serializeElems vs ++ (B :: commaPass r) := by
  have hBnws : isJsWs B = false := by rcases hB with h | h <;> subst h <;> decide
  cases vs with
  | nil =>
    show commaPass (',' :: (B :: r)) = _
    rw [commaPass_cons_match (B :: r) r (by rw [dropWhile_cons_false _ hBnws]) hB]
    rw [show (B :: r).takeWhile isJsWs = [] from by simp [List.takeWhile, hBnws]]
    rfl
  | cons v2 vs2 =>
    have hcl : cleanJson v2 = true ∧ cleanElems vs2 = true := by
      simpa [cleanElems, Bool.and_eq_true] using hc
    have hre : serializeTrailElems (v2 :: vs2) ++ ((',' :: B :: r) : Str) =
        ',' :: (serializeTrail v2 ++ (serializeTrailElems vs2 ++ (',' :: B :: r))) := by
      rw [show serializeTrailElems (v2 :: vs2) =
        ',' :: (serializeTrail v2 ++ serializeTrailElems vs2) from
          by simp [serializeTrailElems]]
      rw [List.cons_append, List.append_assoc]
    have hnm : (',' : Char) = ',' → bracketAfterWs (serializeTrail v2 ++
        (serializeTrailElems vs2 ++ (',' :: B :: r))) = false := by
      intro _
      rcases hd : serializeTrail v2 with _ | ⟨c, t⟩
      · exact absurd hd (serializeTrail_ne_nil v2)
      · have hgh := goodHead_serializeTrail v2
        rw [hd] at hgh
        obtain ⟨_, hws2, hrb, hrc, _, _, _⟩ := goodHead_elim hgh
        rw [List.cons_append, bracketAfterWs_cons_nonws _ hws2]
        simp [hrb, hrc]
    rw [hre, commaPass_cons_nomatch _ hnm, cpT_v v2 hcl.1 _, cpT_es vs2 B hB hcl.2 r]
    rw [show serializeElems (v2 :: vs2) = ',' :: (serialize v2 ++ serializeElems vs2) from
      by simp [serializeElems]]
    rw [List.cons_append, List.append_assoc]
termination_by sizeOf vs

theorem cpT_m (m : Str × JValue) (hk : cleanStr m.1 = true) (hv : cleanJson m.2 = true)
    (Y : Str) :
    commaPass (serializeTrailMember m ++ Y) = serializeMember m ++ commaPass Y := by
  have hmt : serializeTrailMember m ++ Y =
      ('"' :: (escapeStr m.1 ++ ['"', ':'])) ++ (serializeTrail m.2 ++ Y) := by
    rw [serializeTrailMember_eq]
    simp [List.append_assoc]
  have hNM : NoMatchIn ('"' :: (escapeStr m.1 ++ ['"', ':']))
      (serializeTrail m.2 ++ Y) := by
    rw [NM_cons]
    refine ⟨fun h => absurd h (by decide), ?_⟩
    refine NM_append_intro ?_ (NM_of_no_comma ?_ _)
    · exact NM_escape m.1 hk (':' :: (serializeTrail m.2 ++ Y))
    · intro x hx
      rcases (by simpa using hx : x = '"' ∨ x = ':') with h | h <;> subst h <;> decide
  rw [hmt, CP1 _ _ hNM, cpT_v m.2 hv Y, serializeMember_eq]
  simp [List.append_assoc]
termination_by sizeOf m
decreasing_by
  obtain ⟨k, v⟩ := m
  simp

theorem cpT_ms (ms : List (Str × JValue)) (B : Char) (hB : B = '}' ∨ B = ']')
    (hc : cleanMembers ms = true) (r : Str) :
    commaPass (serializeTrailMembers ms ++ (',' :: B :: r)) =
      serializeMembers ms ++ (B :: commaPass r) := by
  have hBnws : isJsWs B = false := by rcases hB with h | h <;> subst h <;> decide
  cases ms with
  | nil =>
    show commaPass (',' :: (B :: r)) = _
    rw [commaPass_cons_match (B :: r) r (by rw [dropWhile_cons_false _ hBnws]) hB]
    rw [show (B :: r).takeWhile isJsWs = [] from by simp [List.takeWhile, hBnws]]
    rfl
  | cons m ms =>
    have hcl := cleanMembers_cons hc
    have hre : serializeTrailMembers (m :: ms) ++ ((',' :: B :: r) : Str) =
        ',' :: (serializeTrailMember m ++ (serializeTrailMembers ms ++ (',' :: B :: r))) := by
      rw [serializeTrailMembers_cons, List.cons_append, List.append_assoc]
    have hnm : (',' : Char) = ',' → bracketAfterWs (serializeTrailMember m ++
        (serializeTrailMembers ms ++ (',' :: B :: r))) = false := by
      intro _
      rw [serializeTrailMember_eq, List.cons_append,
        bracketAfterWs_cons_nonws _ (by decide)]
      rfl
    rw [hre, commaPass_cons_nomatch _ hnm, cpT_m m hcl.1 hcl.2.1 _,
      cpT_ms ms B hB hcl.2.2 r, serializeMembers_cons, List.cons_append, List.append_assoc]
termination_by sizeOf ms

end

/-! ### `fixCommonJSONIssues` repairs, `fixJSONStructure` stays away -/

/-- On the trailing-comma serialisation of a clean value, the comment
strippers do nothing and the comma passes restore the exact
serialisation. -/
theorem fixCommon_repairs (o : JValue) (hc : cleanJson o = true) :
    fixCommonJSONIssues (serializeTrail o) = serialize o := by
  have hchars := serializeTrail_chars o hc
  have hnoslash : ∀ c ∈ serializeTrail o, c ≠ '/' := fun c h => (hchars c h).1
  rw [fixCommonJSONIssues, stripLineComments_id hnoslash, stripBlockComments_id hnoslash]
  have h1 := cpT_v o hc []
  rw [List.append_nil, commaPass_nil, List.append_nil] at h1
  have h2 := cpSer o hc []
  rw [List.append_nil, commaPass_nil, List.append_nil] at h2
  rw [h1, h2, h2]

/-- Without the `"overall_recommendation"` marker, the structural
repair is the identity. -/
theorem fixJSONStructure_id {s : Str} (h : containsSub s orecPat = false) :
    fixJSONStructure s = s := by
  cases hi : indexOfSub s orecPat with
  | none => rw [fixJSONStructure.eq_def, hi]
  | some i =>
    rw [containsSub, hi] at h
    simp at h

/-! ### The fenced-block regex on the wrapped serialisation -/

theorem dropWhile_cons_true {p : Char → Bool} {c : Char} (t : Str) (h : p c = true) :
    (c :: t).dropWhile p = t.dropWhile p := by
  simp [List.dropWhile, h]

theorem fenceClose_append_false : ∀ (s tail : Str), (∃ x ∈ s, isJsWs x = false) →
    (∀ x ∈ s, x ≠ '`') → fenceClose (s ++ tail) = false := by
  intro s
  induction s with
  | nil =>
    intro tail h _
    simp at h
  | cons c t ih =>
    intro tail hex hnb
    by_cases hws : isJsWs c = true
    · rw [List.cons_append]
      rw [show fenceClose (c :: (t ++ tail)) = fenceClose (t ++ tail) from by
        simp [fenceClose, List.dropWhile, hws]]
      refine ih tail ?_ (fun x hx => hnb x (by simp [hx]))
      rcases hex with ⟨x, hxm, hxw⟩
      rcases List.mem_cons.mp hxm with he | hm
      · subst he
        rw [hws] at hxw
        exact absurd hxw (by simp)
      · exact ⟨x, hm, hxw⟩
    · rw [Bool.not_eq_true] at hws
      rw [List.cons_append]
      rw [show fenceClose (c :: (t ++ tail)) =
        ['`','`','`'].isPrefixOf (c :: (t ++ tail)) from by
          simp [fenceClose, List.dropWhile, hws]]
      have hc : ¬ ('`' = c) := fun he => hnb c (by simp) he.symm
      rw [List.isPrefixOf.eq_def]
      dsimp only
      simp [beq_iff_eq, hc]

theorem takeGroup_spec : ∀ (u : Str), (∀ x ∈ u, x ≠ '`') →
    takeGroup (u ++ ('}' :: '\n' :: '`' :: '`' :: '`' :: [])) = some (u ++ ['}']) := by
  intro u
  induction u with
  | nil => intro _; rfl
  | cons c t ih =>
    intro hnb
    rw [List.cons_append, takeGroup.eq_def]
    dsimp only
    by_cases hcb : c = '}'
    · subst hcb
      have hfc : fenceClose (t ++ ('}' :: '\n' :: '`' :: '`' :: '`' :: [])) = false := by
        rw [show t ++ ('}' :: '\n' :: '`' :: '`' :: '`' :: ([] : Str)) =
          (t ++ ['}']) ++ ('\n' :: '`' :: '`' :: '`' :: []) from by
            rw [List.append_assoc]; rfl]
        refine fenceClose_append_false _ _ ⟨'}', by simp, by decide⟩ ?_
        intro x hx
        rcases List.mem_append.mp hx with hm | hm
        · exact hnb x (by simp [hm])
        · have hxe : x = '}' := by simpa using hm
          subst hxe
          decide
      rw [if_neg (fun hand => by rw [hfc] at hand; exact absurd hand.2 (by simp))]
      rw [ih (fun x hx => hnb x (by simp [hx]))]
      rfl
    · rw [if_neg (fun hand => hcb hand.1)]
      rw [ih (fun x hx => hnb x (by simp [hx]))]
      rfl

theorem fenceFrom_explicit (u : Str) (hnb : ∀ x ∈ u, x ≠ '`') :
    fenceFrom ('`' :: '`' :: '`' :: 'j' :: 's' :: 'o' :: 'n' :: '\n' ::
      (('{' :: (u ++ ['}'])) ++ ('\n' :: '`' :: '`' :: '`' :: []))) =
      some ('{' :: (u ++ ['}'])) := by
  have hp1 : ['`','`','`'].isPrefixOf ('`' :: '`' :: '`' :: 'j' :: 's' :: 'o' :: 'n' :: '\n' ::
      (('{' :: (u ++ ['}'])) ++ ('\n' :: '`' :: '`' :: '`' :: []))) = true :=
    isPrefixOf_append ['`','`','`'] _
  have hp2 : ['j','s','o','n'].isPrefixOf ('j' :: 's' :: 'o' :: 'n' :: '\n' ::
      (('{' :: (u ++ ['}'])) ++ ('\n' :: '`' :: '`' :: '`' :: []))) = true :=
    isPrefixOf_append ['j','s','o','n'] _
  unfold fenceFrom
  rw [if_pos hp1]
  simp only [List.drop_succ_cons, List.drop_zero]
  rw [if_pos hp2]
  rw [dropWhile_cons_true _ (by decide), List.cons_append,
    dropWhile_cons_false _ (by decide)]
  show Option.map (fun x => '{' :: x)
    (takeGroup ((u ++ ['}']) ++ ('\n' :: '`' :: '`' :: '`' :: []))) =
    some ('{' :: (u ++ ['}']))
  rw [List.append_assoc, List.singleton_append, takeGroup_spec u hnb]
  rfl

theorem fenceMatch_wrapFenced (u : Str) (hnb : ∀ x ∈ u, x ≠ '`') :
    fenceMatch (wrapFenced ('{' :: (u ++ ['}']))) = some ('{' :: (u ++ ['}'])) := by
  rw [show wrapFenced ('{' :: (u ++ ['}'])) =
    '`' :: ('`' :: '`' :: 'j' :: 's' :: 'o' :: 'n' :: '\n' ::
      (('{' :: (u ++ ['}'])) ++ ('\n' :: '`' :: '`' :: '`' :: []))) from rfl]
  rw [fenceMatch.eq_def]
  dsimp only
  rw [fenceFrom_explicit u hnb]

/-- The direct parse of any backtick-headed text fails. -/
theorem jsonParse_backtick (X : Str) :
    jsonParse ('`' :: X) = .error (unexpectedTokenMsg '`') := by
  rw [jsonParse.eq_def]
  rw [show (('`' :: X).length + 1 : ℕ) = X.length + 1 + 1 from by simp]
  rw [parseValue.eq_def]
  dsimp only
  rw [skipJWs_cons_false _ (by decide)]
  dsimp only
  rw [if_neg (by decide), if_neg (by decide), if_neg (by decide), if_neg (by decide),
    if_neg (by decide), if_neg (by decide), if_neg (by decide)]

/-- C6 (corrected): the extractor round-trip holds for every clean JSON
object — one whose strings (keys and values) contain only printable
characters other than `/` and the backtick and no comma followed by
whitespace and a closing brace or bracket, and whose serialisation does
not contain the `"overall_recommendation"` marker of the structural
repair. For such an object, serialising it with a trailing comma added
after the last element of every nonempty array and object, wrapping the
result in a json-tagged markdown fence, and running `extractJSON`
returns exactly the original object: the direct parse fails on the
backtick, the fenced group is recovered, its parse fails on the
trailing commas, and `fixCommonJSONIssues` (with `fixJSONStructure`
inert) repairs the group so that the retry parse succeeds. -/
theorem c6_roundtrip_amended (ms : List (Str × JValue))
    (hc : cleanJson (.jobj ms) = true)
    (horec : containsSub (serializeTrail (.jobj ms)) orecPat = false) :
    extractJSON (wrapFenced (serializeTrail (.jobj ms))) = .ok (.jobj ms) := by
  cases ms with
  | nil => rfl
  | cons m ms =>
    have hcl := cleanMembers_cons (by simpa [cleanJson] using hc)
    have hbody : serializeTrail (.jobj (m :: ms)) =
        '{' :: ((serializeTrailMember m ++ serializeTrailMembers ms ++ [',']) ++ ['}']) := by
      rw [serializeTrail_jobj_cons]
      simp [List.append_assoc]
    have hnb : ∀ x ∈ serializeTrailMember m ++ serializeTrailMembers ms ++ [','],
        x ≠ '`' := by
      intro x hx
      rcases List.mem_append.mp hx with hx | hx
      · rcases List.mem_append.mp hx with hx | hx
        · exact (serializeTrailMember_chars m hcl.1 hcl.2.1 x hx).2
        · exact (serializeTrailMembers_chars ms hcl.2.2 x hx).2
      · have hxe : x = ',' := by simpa using hx
        subst hxe
        decide
    have hfence := fenceMatch_wrapFenced _ hnb
    rw [← hbody] at hfence
    have hdirect : jsonParse (wrapFenced (serializeTrail (.jobj (m :: ms)))) =
        .error (unexpectedTokenMsg '`') := jsonParse_backtick _
    obtain ⟨e2, he2⟩ := jsonParse_serializeTrail_err (.jobj (m :: ms)) rfl hc
    have hfix := fixJSONStructure_id horec
    have hcommon := fixCommon_repairs (.jobj (m :: ms)) hc
    have hok := jsonParse_serialize (.jobj (m :: ms)) hc
    rw [extractJSON.eq_def, hdirect]
    dsimp only
    rw [hfence]
    dsimp only
    rw [he2]
    dsimp only
    rw [hfix, hcommon, hok]

/-- Witness: the clean one-member object `{"a":1}` satisfies both
hypotheses of the amended round-trip and extracts back to itself. -/
theorem c6_roundtrip_amended_witness :
    cleanJson (.jobj [("a".toList, JValue.jnum 1)]) = true ∧
    containsSub (serializeTrail (.jobj [("a".toList, JValue.jnum 1)])) orecPat = false ∧
    extractJSON (wrapFenced (serializeTrail (.jobj [("a".toList, JValue.jnum 1)]))) =
      .ok (.jobj [("a".toList, JValue.jnum 1)]) :=
  ⟨by decide, by decide, c6_roundtrip_amended _ (by decide) (by decide)⟩

end ShadowCore
